import Mathlib

/-!
# Verification of the `bt` behavior-tree engine

Shallow embedding of `src/include/bt/behavior_tree.hpp` (header-only C++14
behavior-tree library).  The C++ `Node<Context>` mutates itself in place;
here `tick` is written in explicit state-passing style: it returns the
status, the updated node, the updated context, and a ghost trace of
lifecycle events (each event carries the tree path of the node that
produced it, so callback invocations and child ticks can be observed and
reasoned about).  The trace is ghost instrumentation only: the status /
node / context components follow the C++ control flow exactly.

`Node*` child pointers are modelled as `Option (Node Ctx)` entries of the
children list (`none` = null pointer).  `children_count_` is kept in sync
with the children array by the C++ configuration API, so it is modelled
as the length of the children list.  The `uint32_t` completion bitmasks
are modelled as `Nat` with bitwise `|||`/`testBit`; for the child counts
validation allows (at most 32) this agrees with the 32-bit arithmetic of
the source.
-/

set_option maxRecDepth 8000

namespace BTSpec

/-- Execution status of a node (`bt::Status`). -/
inductive Status : Type where
  | kSuccess
  | kFailure
  | kRunning
  | kError
deriving DecidableEq, Repr

/-- Node kind (`bt::NodeType`). -/
inductive NodeType : Type where
  | kAction
  | kCondition
  | kSequence
  | kSelector
  | kParallel
  | kInverter
deriving DecidableEq, Repr

/-- Success/failure policy for parallel nodes (`bt::ParallelPolicy`). -/
inductive ParallelPolicy : Type where
  | kRequireAll
  | kRequireOne
deriving DecidableEq, Repr

/-- Tree-structure validation error codes (`bt::ValidateError`). -/
inductive ValidateError : Type where
  | kNone
  | kLeafMissingTick
  | kInverterNotOneChild
  | kParallelExceedsBitmap
  | kChildrenExceedMax
  | kNullChild
deriving DecidableEq, Repr

/-- `bt::IsLeafType`. -/
def IsLeafType (t : NodeType) : Bool :=
  t = NodeType.kAction || t = NodeType.kCondition

/-- `bt::IsCompositeType`. -/
def IsCompositeType (t : NodeType) : Bool :=
  t = NodeType.kSequence || t = NodeType.kSelector || t = NodeType.kParallel

/-- `BT_MAX_CHILDREN` (default configuration). -/
def kMaxChildren : Nat := 8

/-- `Node::kMaxParallelChildren` (bitmap width). -/
def kMaxParallelChildren : Nat := 32

/-- `bt::Node<Context>`: node type, current status, resume cursor, parallel
policy, the two parallel completion bitmasks, the three callback slots,
the children array (entries are `none` for null pointers) and the debug
name.  Field order follows the C++ data-member declaration order. -/
inductive Node (Ctx : Type) : Type where
  | mk (ty : NodeType) (st : Status) (cur : Nat) (pol : ParallelPolicy)
       (doneBits : Nat) (succBits : Nat)
       (tickFn : Option (Ctx → Status × Ctx))
       (onEnter : Option (Ctx → Ctx)) (onExit : Option (Ctx → Ctx))
       (children : List (Option (Node Ctx)))
       (nm : String)

namespace Node

variable {Ctx : Type}

/-- `type_` data member. -/
def type_ : Node Ctx → NodeType
  | .mk t _ _ _ _ _ _ _ _ _ _ => t

/-- `status_` data member. -/
def status_ : Node Ctx → Status
  | .mk _ s _ _ _ _ _ _ _ _ _ => s

/-- `current_child_` data member. -/
def current_child_ : Node Ctx → Nat
  | .mk _ _ c _ _ _ _ _ _ _ _ => c

/-- `success_policy_` data member. -/
def success_policy_ : Node Ctx → ParallelPolicy
  | .mk _ _ _ p _ _ _ _ _ _ _ => p

/-- `child_done_bits_` data member. -/
def child_done_bits_ : Node Ctx → Nat
  | .mk _ _ _ _ d _ _ _ _ _ _ => d

/-- `child_success_bits_` data member. -/
def child_success_bits_ : Node Ctx → Nat
  | .mk _ _ _ _ _ s _ _ _ _ _ => s

/-- `tick_` callback slot. -/
def tick_ : Node Ctx → Option (Ctx → Status × Ctx)
  | .mk _ _ _ _ _ _ f _ _ _ _ => f

/-- `on_enter_` callback slot. -/
def on_enter_ : Node Ctx → Option (Ctx → Ctx)
  | .mk _ _ _ _ _ _ _ f _ _ _ => f

/-- `on_exit_` callback slot. -/
def on_exit_ : Node Ctx → Option (Ctx → Ctx)
  | .mk _ _ _ _ _ _ _ _ f _ _ => f

/-- `children_` array (with `children_count_ = children_.length`). -/
def children_ : Node Ctx → List (Option (Node Ctx))
  | .mk _ _ _ _ _ _ _ _ _ c _ => c

/-- `name_` data member. -/
def name_ : Node Ctx → String
  | .mk _ _ _ _ _ _ _ _ _ _ n => n

end Node

/-- Ghost observation events.  Each event records the tree path (list of
child indices from the root of the `Tick` call) of the node that produced
it: `enterEv p` = the bound on-enter callback of the node at `p` ran,
`exitEv p` = its bound on-exit callback ran, `tickEv p s` = the node at
`p` was ticked and its `Tick` returned `s`. -/
inductive Event : Type where
  | enterEv (p : List Nat)
  | exitEv (p : List Nat)
  | tickEv (p : List Nat) (s : Status)
deriving DecidableEq, Repr

/-- The path an event was produced at. -/
def Event.path : Event → List Nat
  | .enterEv p => p
  | .exitEv p => p
  | .tickEv p _ => p

/-- Result of one `Node::Tick` call: returned status, updated node,
updated context, ghost event trace. -/
structure TRes (Ctx : Type) : Type where
  res : Status
  node : Node Ctx
  ctx : Ctx
  tr : List Event

/-- How the sequence/selector child scan loop ended:
ran off the end (`completed`), hit a null child pointer at index `i`
(`nullAt`), a child returned Running at index `i` (`runningAt`), or a
child returned a deciding terminal status `s` at index `i` (`haltAt`). -/
inductive ScanStop : Type where
  | completed
  | nullAt (i : Nat)
  | runningAt (i : Nat)
  | haltAt (i : Nat) (s : Status)
deriving DecidableEq, Repr

/-- Result of the sequence/selector scan loop. -/
structure ScanRes (Ctx : Type) : Type where
  stop : ScanStop
  children : List (Option (Node Ctx))
  ctx : Ctx
  tr : List Event

/-- Result of the parallel loop: the per-cycle counters
`running_count` / `success_count` / `failure_count`, the updated
bitmasks, updated children, context and trace. -/
structure ParRes (Ctx : Type) : Type where
  runningCnt : Nat
  successCnt : Nat
  failureCnt : Nat
  doneBits : Nat
  succBits : Nat
  children : List (Option (Node Ctx))
  ctx : Ctx
  tr : List Event

variable {Ctx : Type}

/-- `Node::CallEnter`: run the on-enter callback if bound (recording an
`enterEv` ghost event when it runs). -/
def callEnter (p : List Nat) (cb : Option (Ctx → Ctx)) (ctx : Ctx) :
    Ctx × List Event :=
  match cb with
  | some f => (f ctx, [Event.enterEv p])
  | none => (ctx, [])

/-- `Node::CallExit`: run the on-exit callback if bound. -/
def callExit (p : List Nat) (cb : Option (Ctx → Ctx)) (ctx : Ctx) :
    Ctx × List Event :=
  match cb with
  | some f => (f ctx, [Event.exitEv p])
  | none => (ctx, [])

/-- `Node::TickLeaf`: missing callback is an Error (note: the C++ returns
before the lifecycle callbacks in that case); otherwise on-enter when not
resuming, adopt the callback's status verbatim, on-exit on a terminal
result. -/
def tickLeaf (p : List Nat) (n : Node Ctx) (ctx : Ctx) : TRes Ctx :=
  match n with
  | .mk t st cur pol db sb tk en ex ch nm =>
    match tk with
    | none =>
      ⟨Status.kError, .mk t Status.kError cur pol db sb none en ex ch nm, ctx,
        [Event.tickEv p Status.kError]⟩
    | some f =>
      let e0 := if st = Status.kRunning then (ctx, ([] : List Event))
                else callEnter p en ctx
      let r0 := f e0.1
      let e2 := if r0.1 = Status.kRunning then (r0.2, ([] : List Event))
                else callExit p ex r0.2
      ⟨r0.1, .mk t r0.1 cur pol db sb (some f) en ex ch nm, e2.1,
        e0.2 ++ e2.2 ++ [Event.tickEv p r0.1]⟩

mutual

/-- `Node::Tick`: dispatch on the node type. -/
def tick (p : List Nat) (n : Node Ctx) (ctx : Ctx) : TRes Ctx :=
  match n.type_ with
  | NodeType.kAction => tickLeaf p n ctx
  | NodeType.kCondition => tickLeaf p n ctx
  | NodeType.kSequence => tickSequence p n ctx
  | NodeType.kSelector => tickSelector p n ctx
  | NodeType.kParallel => tickParallel p n ctx
  | NodeType.kInverter => tickInverter p n ctx
  termination_by (sizeOf n, 3)

/-- `Node::TickSequence`: on fresh entry reset the cursor and call
on-enter; scan children from the cursor; Error on a null child;
Running saves the cursor; first non-Success terminal propagates;
otherwise Success. -/
def tickSequence (p : List Nat) (n : Node Ctx) (ctx : Ctx) : TRes Ctx :=
  match n with
  | .mk t st cur pol db sb tk en ex ch nm =>
    let cur0 := if st = Status.kRunning then cur else 0
    let e0 := if st = Status.kRunning then (ctx, ([] : List Event))
              else callEnter p en ctx
    let r := seqLoop p cur0 0 ch e0.1
    match r.stop with
    | ScanStop.completed =>
      let e2 := callExit p ex r.ctx
      ⟨Status.kSuccess,
        .mk t Status.kSuccess cur0 pol db sb tk en ex r.children nm, e2.1,
        e0.2 ++ r.tr ++ e2.2 ++ [Event.tickEv p Status.kSuccess]⟩
    | ScanStop.nullAt _ =>
      let e2 := callExit p ex r.ctx
      ⟨Status.kError,
        .mk t Status.kError cur0 pol db sb tk en ex r.children nm, e2.1,
        e0.2 ++ r.tr ++ e2.2 ++ [Event.tickEv p Status.kError]⟩
    | ScanStop.runningAt i =>
      ⟨Status.kRunning,
        .mk t Status.kRunning i pol db sb tk en ex r.children nm, r.ctx,
        e0.2 ++ r.tr ++ [Event.tickEv p Status.kRunning]⟩
    | ScanStop.haltAt i s =>
      let e2 := callExit p ex r.ctx
      ⟨s, .mk t s i pol db sb tk en ex r.children nm, e2.1,
        e0.2 ++ r.tr ++ e2.2 ++ [Event.tickEv p s]⟩
  termination_by (sizeOf n, 2)

/-- The sequence scan loop (`for (i = current_child_; ...)` in
`TickSequence`), written as one pass over the whole children list that
leaves indices `< cur` untouched.  Stops on the first null child, the
first Running child, or the first non-Success terminal child status. -/
def seqLoop (p : List Nat) (cur i : Nat) (l : List (Option (Node Ctx)))
    (ctx : Ctx) : ScanRes Ctx :=
  match l with
  | [] => ⟨ScanStop.completed, [], ctx, []⟩
  | c :: rest =>
    if i < cur then
      let r := seqLoop p cur (i + 1) rest ctx
      ⟨r.stop, c :: r.children, r.ctx, r.tr⟩
    else
      match c with
      | none => ⟨ScanStop.nullAt i, none :: rest, ctx, []⟩
      | some child =>
        let ct := tick (p ++ [i]) child ctx
        match ct.res with
        | Status.kRunning =>
          ⟨ScanStop.runningAt i, some ct.node :: rest, ct.ctx, ct.tr⟩
        | Status.kSuccess =>
          let r := seqLoop p cur (i + 1) rest ct.ctx
          ⟨r.stop, some ct.node :: r.children, r.ctx, ct.tr ++ r.tr⟩
        | s => ⟨ScanStop.haltAt i s, some ct.node :: rest, ct.ctx, ct.tr⟩
  termination_by (sizeOf l, 0)

/-- `Node::TickSelector`: like the sequence, but Success decides and
Failure continues the scan; Error also decides. -/
def tickSelector (p : List Nat) (n : Node Ctx) (ctx : Ctx) : TRes Ctx :=
  match n with
  | .mk t st cur pol db sb tk en ex ch nm =>
    let cur0 := if st = Status.kRunning then cur else 0
    let e0 := if st = Status.kRunning then (ctx, ([] : List Event))
              else callEnter p en ctx
    let r := selLoop p cur0 0 ch e0.1
    match r.stop with
    | ScanStop.completed =>
      let e2 := callExit p ex r.ctx
      ⟨Status.kFailure,
        .mk t Status.kFailure cur0 pol db sb tk en ex r.children nm, e2.1,
        e0.2 ++ r.tr ++ e2.2 ++ [Event.tickEv p Status.kFailure]⟩
    | ScanStop.nullAt _ =>
      let e2 := callExit p ex r.ctx
      ⟨Status.kError,
        .mk t Status.kError cur0 pol db sb tk en ex r.children nm, e2.1,
        e0.2 ++ r.tr ++ e2.2 ++ [Event.tickEv p Status.kError]⟩
    | ScanStop.runningAt i =>
      ⟨Status.kRunning,
        .mk t Status.kRunning i pol db sb tk en ex r.children nm, r.ctx,
        e0.2 ++ r.tr ++ [Event.tickEv p Status.kRunning]⟩
    | ScanStop.haltAt i s =>
      let e2 := callExit p ex r.ctx
      ⟨s, .mk t s i pol db sb tk en ex r.children nm, e2.1,
        e0.2 ++ r.tr ++ e2.2 ++ [Event.tickEv p s]⟩
  termination_by (sizeOf n, 2)

/-- The selector scan loop: Failure continues, Success/Error decide,
Running saves the cursor. -/
def selLoop (p : List Nat) (cur i : Nat) (l : List (Option (Node Ctx)))
    (ctx : Ctx) : ScanRes Ctx :=
  match l with
  | [] => ⟨ScanStop.completed, [], ctx, []⟩
  | c :: rest =>
    if i < cur then
      let r := selLoop p cur (i + 1) rest ctx
      ⟨r.stop, c :: r.children, r.ctx, r.tr⟩
    else
      match c with
      | none => ⟨ScanStop.nullAt i, none :: rest, ctx, []⟩
      | some child =>
        let ct := tick (p ++ [i]) child ctx
        match ct.res with
        | Status.kRunning =>
          ⟨ScanStop.runningAt i, some ct.node :: rest, ct.ctx, ct.tr⟩
        | Status.kFailure =>
          let r := selLoop p cur (i + 1) rest ct.ctx
          ⟨r.stop, some ct.node :: r.children, r.ctx, ct.tr ++ r.tr⟩
        | s => ⟨ScanStop.haltAt i s, some ct.node :: rest, ct.ctx, ct.tr⟩
  termination_by (sizeOf l, 0)

/-- `Node::TickParallel`: on fresh entry clear both bitmasks and call
on-enter; tick every not-yet-done child, counting running / succeeded /
failed children (a null child and a child Error both count as failed and
are marked done); then evaluate the policy. -/
def tickParallel (p : List Nat) (n : Node Ctx) (ctx : Ctx) : TRes Ctx :=
  match n with
  | .mk t st cur pol db sb tk en ex ch nm =>
    let db0 := if st = Status.kRunning then db else 0
    let sb0 := if st = Status.kRunning then sb else 0
    let e0 := if st = Status.kRunning then (ctx, ([] : List Event))
              else callEnter p en ctx
    let r := parLoop p 0 db0 sb0 ch e0.1
    match pol with
    | ParallelPolicy.kRequireOne =>
      if r.successCnt > 0 then
        let e2 := callExit p ex r.ctx
        ⟨Status.kSuccess,
          .mk t Status.kSuccess cur pol r.doneBits r.succBits tk en ex
            r.children nm, e2.1,
          e0.2 ++ r.tr ++ e2.2 ++ [Event.tickEv p Status.kSuccess]⟩
      else if r.runningCnt > 0 then
        ⟨Status.kRunning,
          .mk t Status.kRunning cur pol r.doneBits r.succBits tk en ex
            r.children nm, r.ctx,
          e0.2 ++ r.tr ++ [Event.tickEv p Status.kRunning]⟩
      else
        let e2 := callExit p ex r.ctx
        ⟨Status.kFailure,
          .mk t Status.kFailure cur pol r.doneBits r.succBits tk en ex
            r.children nm, e2.1,
          e0.2 ++ r.tr ++ e2.2 ++ [Event.tickEv p Status.kFailure]⟩
    | ParallelPolicy.kRequireAll =>
      if r.failureCnt > 0 then
        let e2 := callExit p ex r.ctx
        ⟨Status.kFailure,
          .mk t Status.kFailure cur pol r.doneBits r.succBits tk en ex
            r.children nm, e2.1,
          e0.2 ++ r.tr ++ e2.2 ++ [Event.tickEv p Status.kFailure]⟩
      else if r.runningCnt > 0 then
        ⟨Status.kRunning,
          .mk t Status.kRunning cur pol r.doneBits r.succBits tk en ex
            r.children nm, r.ctx,
          e0.2 ++ r.tr ++ [Event.tickEv p Status.kRunning]⟩
      else
        let e2 := callExit p ex r.ctx
        ⟨Status.kSuccess,
          .mk t Status.kSuccess cur pol r.doneBits r.succBits tk en ex
            r.children nm, e2.1,
          e0.2 ++ r.tr ++ e2.2 ++ [Event.tickEv p Status.kSuccess]⟩
  termination_by (sizeOf n, 2)

/-- The parallel loop: already-done children are skipped and their cached
outcome (the success bit) is re-counted; a null child is marked done and
counted as failed; otherwise the child is ticked and its result counted,
terminal results setting the done (and success) bits. -/
def parLoop (p : List Nat) (i : Nat) (db sb : Nat)
    (l : List (Option (Node Ctx))) (ctx : Ctx) : ParRes Ctx :=
  match l with
  | [] => ⟨0, 0, 0, db, sb, [], ctx, []⟩
  | c :: rest =>
    if db.testBit i then
      let r := parLoop p (i + 1) db sb rest ctx
      if sb.testBit i then
        { r with successCnt := r.successCnt + 1, children := c :: r.children }
      else
        { r with failureCnt := r.failureCnt + 1, children := c :: r.children }
    else
      match c with
      | none =>
        let r := parLoop p (i + 1) (db ||| (1 <<< i)) sb rest ctx
        { r with failureCnt := r.failureCnt + 1,
                 children := none :: r.children }
      | some child =>
        let ct := tick (p ++ [i]) child ctx
        match ct.res with
        | Status.kRunning =>
          let r := parLoop p (i + 1) db sb rest ct.ctx
          { r with runningCnt := r.runningCnt + 1,
                   children := some ct.node :: r.children,
                   tr := ct.tr ++ r.tr }
        | Status.kSuccess =>
          let r := parLoop p (i + 1) (db ||| (1 <<< i)) (sb ||| (1 <<< i))
                     rest ct.ctx
          { r with successCnt := r.successCnt + 1,
                   children := some ct.node :: r.children,
                   tr := ct.tr ++ r.tr }
        | _ =>
          let r := parLoop p (i + 1) (db ||| (1 <<< i)) sb rest ct.ctx
          { r with failureCnt := r.failureCnt + 1,
                   children := some ct.node :: r.children,
                   tr := ct.tr ++ r.tr }
  termination_by (sizeOf l, 0)

/-- `Node::TickInverter`: a child count other than one or a null child is
an Error (again returned before the lifecycle callbacks); otherwise
Success and Failure are swapped, Running/Error pass through. -/
def tickInverter (p : List Nat) (n : Node Ctx) (ctx : Ctx) : TRes Ctx :=
  match n with
  | .mk t st cur pol db sb tk en ex ch nm =>
    match ch with
    | [some child] =>
      let e0 := if st = Status.kRunning then (ctx, ([] : List Event))
                else callEnter p en ctx
      let ct := tick (p ++ [0]) child e0.1
      let result :=
        match ct.res with
        | Status.kSuccess => Status.kFailure
        | Status.kFailure => Status.kSuccess
        | s => s
      let e2 := if result = Status.kRunning then (ct.ctx, ([] : List Event))
                else callExit p ex ct.ctx
      ⟨result, .mk t result cur pol db sb tk en ex [some ct.node] nm, e2.1,
        e0.2 ++ ct.tr ++ e2.2 ++ [Event.tickEv p result]⟩
    | _ =>
      ⟨Status.kError, .mk t Status.kError cur pol db sb tk en ex ch nm, ctx,
        [Event.tickEv p Status.kError]⟩
  termination_by (sizeOf n, 2)

end

mutual

/-- `Node::Reset`: restore idle status (Failure), clear cursor and both
bitmasks, recursively in every non-null child. -/
def reset : Node Ctx → Node Ctx
  | .mk t _ _ pol _ _ tk en ex ch nm =>
    .mk t Status.kFailure 0 pol 0 0 tk en ex (resetChildren ch) nm
  termination_by n => (sizeOf n, 1)

/-- The recursive child loop of `Node::Reset` (null children skipped). -/
def resetChildren : List (Option (Node Ctx)) → List (Option (Node Ctx))
  | [] => []
  | none :: rest => none :: resetChildren rest
  | some c :: rest => some (reset c) :: resetChildren rest
  termination_by l => (sizeOf l, 0)

end

/-- `Node::Validate` (single node, non-recursive): the sequential
early-return checks of the C++, in source order. -/
def Validate (n : Node Ctx) : ValidateError :=
  if kMaxChildren < n.children_.length then ValidateError.kChildrenExceedMax
  else if n.children_.any fun c => c.isNone then ValidateError.kNullChild
  else if IsLeafType n.type_ && n.tick_.isNone then
    ValidateError.kLeafMissingTick
  else if n.type_ = NodeType.kInverter && n.children_.length ≠ 1 then
    ValidateError.kInverterNotOneChild
  else if n.type_ = NodeType.kParallel &&
      kMaxParallelChildren < n.children_.length then
    ValidateError.kParallelExceedsBitmap
  else ValidateError.kNone

mutual

/-- `Node::ValidateTree`: validate this node, then recursively each
non-null child, returning the first error found. -/
def ValidateTree (n : Node Ctx) : ValidateError :=
  match n with
  | .mk t st cur pol db sb tk en ex ch nm =>
    match Validate (.mk t st cur pol db sb tk en ex ch nm) with
    | ValidateError.kNone => validateTreeChildren ch
    | e => e
  termination_by (sizeOf n, 1)

/-- The recursive child loop of `Node::ValidateTree`. -/
def validateTreeChildren : List (Option (Node Ctx)) → ValidateError
  | [] => ValidateError.kNone
  | none :: rest => validateTreeChildren rest
  | some c :: rest =>
    match ValidateTree c with
    | ValidateError.kNone => validateTreeChildren rest
    | e => e
  termination_by l => (sizeOf l, 0)

end

mutual

/-- A node (and recursively its whole subtree) is in the idle state:
status Failure, cursor 0, both bitmasks 0. -/
def idleb : Node Ctx → Bool
  | .mk _ st cur _ db sb _ _ _ ch _ =>
    st = Status.kFailure && cur = 0 && db = 0 && sb = 0 && idlebChildren ch
  termination_by n => (sizeOf n, 1)

/-- `idleb` over a children list (null children are vacuously idle). -/
def idlebChildren : List (Option (Node Ctx)) → Bool
  | [] => true
  | none :: rest => idlebChildren rest
  | some c :: rest => idleb c && idlebChildren rest
  termination_by l => (sizeOf l, 0)

end

mutual

/-- Two nodes carry the same configuration: same type, policy, callbacks,
name, and children lists of the same shape (null exactly where null) with
recursively configuration-equal children.  Execution state (status,
cursor, bitmasks) is not constrained. -/
def sameConfig : Node Ctx → Node Ctx → Prop
  | .mk t _ _ pol _ _ tk en ex ch nm, .mk t' _ _ pol' _ _ tk' en' ex' ch' nm' =>
    t = t' ∧ pol = pol' ∧ tk = tk' ∧ en = en' ∧ ex = ex' ∧ nm = nm' ∧
      sameConfigChildren ch ch'
  termination_by n _ => (sizeOf n, 1)

/-- `sameConfig` over children lists. -/
def sameConfigChildren :
    List (Option (Node Ctx)) → List (Option (Node Ctx)) → Prop
  | [], [] => True
  | none :: r, none :: r' => sameConfigChildren r r'
  | some c :: r, some c' :: r' => sameConfig c c' ∧ sameConfigChildren r r'
  | _, _ => False
  termination_by l _ => (sizeOf l, 0)

end

/-- Strong induction over nodes by size (used for the nested tree). -/
theorem Node.sizeOf_induction {Ctx : Type} {motive : Node Ctx → Prop}
    (ind : ∀ n, (∀ m : Node Ctx, sizeOf m < sizeOf n → motive m) → motive n) :
    ∀ n, motive n := by
  have key : ∀ (k : Nat) (n : Node Ctx), sizeOf n < k → motive n := by
    intro k
    induction k with
    | zero => intro n h; omega
    | succ k ih =>
      intro n h
      exact ind n fun m hm => ih m (by omega)
  exact fun n => key (sizeOf n + 1) n (by omega)

/-- A member of a children list is smaller than the list. -/
theorem sizeOf_lt_of_mem_children {Ctx : Type} {c : Node Ctx}
    {l : List (Option (Node Ctx))} (h : some c ∈ l) : sizeOf c < sizeOf l := by
  induction l with
  | nil => cases h
  | cons a rest ih =>
    rcases List.mem_cons.mp h with h' | h'
    · subst h'
      simp
      omega
    · have := ih h'
      simp
      omega

/-- The children list is smaller than the node. -/
theorem Node.sizeOf_children_lt {Ctx : Type} (n : Node Ctx) :
    sizeOf n.children_ < sizeOf n := by
  cases n with
  | mk t st cur pol db sb tk en ex ch nm =>
    simp [Node.children_]
    omega

/-- Every tick handler stores the status it is about to return before
returning it, so the returned status and the cached one agree. -/
theorem tick_res_eq_status (p : List Nat) (n : Node Ctx) (ctx : Ctx) :
    (tick p n ctx).res = (tick p n ctx).node.status_ := by
  cases n with
  | mk t st cur pol db sb tk en ex ch nm =>
    cases t
    case kAction =>
      simp only [tick, Node.type_]
      cases tk <;> simp [tickLeaf, Node.status_]
    case kCondition =>
      simp only [tick, Node.type_]
      cases tk <;> simp [tickLeaf, Node.status_]
    case kSequence =>
      simp only [tick, Node.type_, tickSequence]
      split <;> simp [Node.status_]
    case kSelector =>
      simp only [tick, Node.type_, tickSelector]
      split <;> simp [Node.status_]
    case kParallel =>
      cases pol <;>
        · simp only [tick, Node.type_, tickParallel.eq_def]
          split_ifs <;> simp [Node.status_]
    case kInverter =>
      simp only [tick, Node.type_]
      match ch with
      | [] => simp [tickInverter, Node.status_]
      | [none] => simp [tickInverter, Node.status_]
      | [some c] => simp [tickInverter, Node.status_]
      | c :: c2 :: rest => cases c <;> simp [tickInverter, Node.status_]

/-- `reset` produces an idle, configuration-preserving tree (joint helper
for the node and children-list recursions). -/
theorem reset_ok (n : Node Ctx) :
    idleb (reset n) = true ∧ sameConfig n (reset n) := by
  induction n using Node.sizeOf_induction with
  | _ n ih =>
    have hlist : ∀ l : List (Option (Node Ctx)),
        (∀ c : Node Ctx, some c ∈ l →
          idleb (reset c) = true ∧ sameConfig c (reset c)) →
        idlebChildren (resetChildren l) = true ∧
          sameConfigChildren l (resetChildren l) := by
      intro l
      induction l with
      | nil => intro _; simp [resetChildren, idlebChildren, sameConfigChildren]
      | cons a rest ihl =>
        intro hms
        cases a with
        | none =>
          have hrest := ihl fun c' hc' => hms c' (by simp [hc'])
          simp [resetChildren, idlebChildren, sameConfigChildren, hrest.1,
            hrest.2]
        | some c =>
          have hc := hms c (by simp)
          have hrest := ihl fun c' hc' => hms c' (by simp [hc'])
          simp [resetChildren, idlebChildren, sameConfigChildren, hc.1, hc.2,
            hrest.1, hrest.2]
    cases n with
    | mk t st cur pol db sb tk en ex ch nm =>
      have hmem : ∀ c : Node Ctx, some c ∈ ch →
          idleb (reset c) = true ∧ sameConfig c (reset c) := by
        intro c hc
        apply ih
        have h1 : sizeOf c < sizeOf ch := sizeOf_lt_of_mem_children hc
        have h2 : sizeOf ch <
            sizeOf (Node.mk t st cur pol db sb tk en ex ch nm) := by
          simp
          omega
        omega
      have h := hlist ch hmem
      constructor
      · simp [reset, idleb, h.1]
      · simp [reset, sameConfig, h.2]

/-- Equality of an `Option` with `none` is decidable even when the value
type has no decidable equality (the callback slots hold functions). -/
instance optionEqNoneDec {A : Type} (o : Option A) : Decidable (o = none) :=
  match o with
  | none => isTrue rfl
  | some a => isFalse (by simp)

/-- The null-child scan of `Validate` finds a null entry iff one is a
member of the children list. -/
theorem anyNone_iff (l : List (Option (Node Ctx))) :
    (l.any fun c => c.isNone) = true ↔ none ∈ l := by
  simp [List.any_eq_true, Option.isNone_iff_eq_none]

/-- Spec-side fault predicate: children count exceeds the configured
capacity. -/
def faultExceedMax (n : Node Ctx) : Prop :=
  kMaxChildren < n.children_.length

/-- Spec-side fault predicate: some child reference is null. -/
def faultNullChild (n : Node Ctx) : Prop :=
  none ∈ n.children_

/-- Spec-side fault predicate: a leaf-kind node with no bound tick
callback. -/
def faultLeafNoTick (n : Node Ctx) : Prop :=
  IsLeafType n.type_ = true ∧ n.tick_ = none

/-- Spec-side fault predicate: an Inverter whose child count is not
exactly one. -/
def faultInverterArity (n : Node Ctx) : Prop :=
  n.type_ = NodeType.kInverter ∧ n.children_.length ≠ 1

/-- Spec-side fault predicate: a Parallel node with more children than
the bitmask width. -/
def faultParallelWidth (n : Node Ctx) : Prop :=
  n.type_ = NodeType.kParallel ∧ kMaxParallelChildren < n.children_.length

instance (n : Node Ctx) : Decidable (faultExceedMax n) := by
  unfold faultExceedMax
  infer_instance

instance (n : Node Ctx) : Decidable (faultNullChild n) :=
  decidable_of_iff ((n.children_.any fun c => c.isNone) = true)
    (anyNone_iff n.children_)

instance (n : Node Ctx) : Decidable (faultLeafNoTick n) := by
  unfold faultLeafNoTick
  infer_instance

instance (n : Node Ctx) : Decidable (faultInverterArity n) := by
  unfold faultInverterArity
  infer_instance

instance (n : Node Ctx) : Decidable (faultParallelWidth n) := by
  unfold faultParallelWidth
  infer_instance

/-- Single-node validation as the specification words it: the first
violated rule in the fixed priority order (capacity, null child, leaf
callback, inverter arity, parallel width), else the no-error sentinel. -/
def ValidateSpec (n : Node Ctx) : ValidateError :=
  if faultExceedMax n then ValidateError.kChildrenExceedMax
  else if faultNullChild n then ValidateError.kNullChild
  else if faultLeafNoTick n then ValidateError.kLeafMissingTick
  else if faultInverterArity n then ValidateError.kInverterNotOneChild
  else if faultParallelWidth n then ValidateError.kParallelExceedsBitmap
  else ValidateError.kNone

mutual

/-- Pre-order listing of the (non-null) nodes of a subtree. -/
def preorder : Node Ctx → List (Node Ctx)
  | .mk t st cur pol db sb tk en ex ch nm =>
    .mk t st cur pol db sb tk en ex ch nm :: preorderChildren ch
  termination_by n => (sizeOf n, 1)

/-- Pre-order listing over a children list. -/
def preorderChildren : List (Option (Node Ctx)) → List (Node Ctx)
  | [] => []
  | none :: rest => preorderChildren rest
  | some c :: rest => preorder c ++ preorderChildren rest
  termination_by l => (sizeOf l, 0)

end

/-- The first non-`kNone` entry of a list of validation results. -/
def firstErr : List ValidateError → ValidateError
  | [] => ValidateError.kNone
  | e :: rest => if e = ValidateError.kNone then firstErr rest else e

theorem firstErr_append (a b : List ValidateError) :
    firstErr (a ++ b) =
      if firstErr a = ValidateError.kNone then firstErr b else firstErr a := by
  induction a with
  | nil => simp [firstErr]
  | cons e rest ih =>
    by_cases he : e = ValidateError.kNone <;> simp [firstErr, he, ih]

theorem firstErr_eq_none_iff (a : List ValidateError) :
    firstErr a = ValidateError.kNone ↔
      ∀ e ∈ a, e = ValidateError.kNone := by
  induction a with
  | nil => simp [firstErr]
  | cons e rest ih =>
    by_cases he : e = ValidateError.kNone <;> simp [firstErr, he, ih]

/-- `ValidateTree` computes the first validation failure of the pre-order
node listing. -/
theorem validateTree_eq_firstErr (n : Node Ctx) :
    ValidateTree n = firstErr ((preorder n).map Validate) := by
  induction n using Node.sizeOf_induction with
  | _ n ih =>
    have hlist : ∀ l : List (Option (Node Ctx)),
        (∀ c : Node Ctx, some c ∈ l →
          ValidateTree c = firstErr ((preorder c).map Validate)) →
        validateTreeChildren l =
          firstErr ((preorderChildren l).map Validate) := by
      intro l
      induction l with
      | nil => intro _; simp [validateTreeChildren, preorderChildren, firstErr]
      | cons a rest ihl =>
        intro hms
        cases a with
        | none =>
          have hrest := ihl fun c' hc' => hms c' (by simp [hc'])
          simp [validateTreeChildren, preorderChildren, hrest]
        | some c =>
          have hc := hms c (by simp)
          have hrest := ihl fun c' hc' => hms c' (by simp [hc'])
          simp only [validateTreeChildren, preorderChildren, List.map_append,
            firstErr_append, ← hc, ← hrest]
          cases hvc : ValidateTree c <;> simp [hvc]
    cases n with
    | mk t st cur pol db sb tk en ex ch nm =>
      have hmem : ∀ c : Node Ctx, some c ∈ ch →
          ValidateTree c = firstErr ((preorder c).map Validate) := by
        intro c hc
        apply ih
        have h1 : sizeOf c < sizeOf ch := sizeOf_lt_of_mem_children hc
        have h2 : sizeOf ch <
            sizeOf (Node.mk t st cur pol db sb tk en ex ch nm) := by
          simp
          omega
        omega
      have h := hlist ch hmem
      simp only [ValidateTree, preorder, List.map_cons, firstErr, h]
      cases hv : Validate (Node.mk t st cur pol db sb tk en ex ch nm) <;>
        simp [hv]

/-- C8: `Reset()` leaves status = Failure, cursor = 0 and both completion
bitmasks = 0, recursively in every descendant, while leaving the node's
configuration (type, children count/order/shape, callbacks, parallel
policy, name) unchanged. -/
theorem claim_C8 (n : Node Ctx) :
    idleb (reset n) = true ∧ sameConfig n (reset n) ∧
    (reset n).status_ = Status.kFailure ∧
    (reset n).current_child_ = 0 ∧
    (reset n).child_done_bits_ = 0 ∧
    (reset n).child_success_bits_ = 0 := by
  refine ⟨(reset_ok n).1, (reset_ok n).2, ?_, ?_, ?_, ?_⟩ <;>
    · cases n with
      | mk t st cur pol db sb tk en ex ch nm =>
        simp [reset, Node.status_, Node.current_child_, Node.child_done_bits_,
          Node.child_success_bits_]

/-- C9: `Validate()` returns the first violated rule in the fixed priority
order (children count over capacity, null child, leaf without tick
callback, inverter arity, parallel width), the no-error sentinel iff none
apply; `ValidateTree()` applies the same check in pre-order and returns
the first failure, no-error iff every node of the subtree passes. -/
theorem claim_C9 (n : Node Ctx) :
    Validate n = ValidateSpec n ∧
    (Validate n = ValidateError.kNone ↔
      ¬faultExceedMax n ∧ ¬faultNullChild n ∧ ¬faultLeafNoTick n ∧
      ¬faultInverterArity n ∧ ¬faultParallelWidth n) ∧
    ValidateTree n = firstErr ((preorder n).map Validate) ∧
    (ValidateTree n = ValidateError.kNone ↔
      ∀ m ∈ preorder n, Validate m = ValidateError.kNone) := by
  have unf : Validate n = ValidateSpec n ∧
      (Validate n = ValidateError.kNone ↔
        ¬faultExceedMax n ∧ ¬faultNullChild n ∧ ¬faultLeafNoTick n ∧
        ¬faultInverterArity n ∧ ¬faultParallelWidth n) := by
    simp only [Validate, ValidateSpec, faultExceedMax, faultNullChild,
      faultLeafNoTick, faultInverterArity, faultParallelWidth, anyNone_iff,
      Bool.and_eq_true, Option.isNone_iff_eq_none]
    by_cases h1 : kMaxChildren < n.children_.length
    · simp [h1]
    by_cases h2 : none ∈ n.children_
    · simp [h1, h2]
    by_cases h3 : IsLeafType n.type_ = true ∧ n.tick_ = none
    · simp [h1, h2, h3]
    by_cases h4 : n.type_ = NodeType.kInverter ∧ n.children_.length ≠ 1
    · simp [h1, h2, h3, h4, IsLeafType]
    by_cases h5 : n.type_ = NodeType.kParallel ∧
        kMaxParallelChildren < n.children_.length
    · simp [h1, h2, h3, h4, h5, IsLeafType]
    · simp [h1, h2, h3, h4, h5]
  refine ⟨unf.1, unf.2, validateTree_eq_firstErr n, ?_⟩
  rw [validateTree_eq_firstErr, firstErr_eq_none_iff]
  simp

/-- C10: on every dispatch path the status value returned by
`Node::Tick` equals the node's stored status immediately after the
call. -/
theorem claim_C10 (p : List Nat) (n : Node Ctx) (ctx : Ctx) :
    (tick p n ctx).res = (tick p n ctx).node.status_ :=
  tick_res_eq_status p n ctx

/-- Strip a path prefix: `dropPref p q = some r` iff `q = p ++ r`. -/
def dropPref : List Nat → List Nat → Option (List Nat)
  | [], q => some q
  | _ :: _, [] => none
  | a :: as, b :: bs => if a = b then dropPref as bs else none

theorem dropPref_append (p q : List Nat) : dropPref p (p ++ q) = some q := by
  induction p with
  | nil => rfl
  | cons a as ih => simp [dropPref, ih]

theorem dropPref_eq_some {p q r : List Nat} (h : dropPref p q = some r) :
    q = p ++ r := by
  induction p generalizing q with
  | nil => simpa [dropPref] using h
  | cons a as ih =>
    cases q with
    | nil => simp [dropPref] at h
    | cons b bs =>
      by_cases hab : a = b
      · subst hab
        simp [dropPref] at h
        simpa using ih h
      · simp [dropPref, hab] at h

/-- Extract the result of a `tickEv` at exactly path `p`. -/
def ownTickEv (p : List Nat) : Event → Option Status
  | .tickEv q s => if q = p then some s else none
  | _ => none

/-- Extract `(j, s)` from a `tickEv` at exactly path `p ++ [j]` (the tick
result of a direct child of the node at `p`). -/
def childTickEv (p : List Nat) : Event → Option (Nat × Status)
  | .tickEv q s =>
    match dropPref p q with
    | some [j] => some (j, s)
    | _ => none
  | _ => none

/-- The direct-child tick results recorded in a trace, in order. -/
def childTicks (p : List Nat) (tr : List Event) : List (Nat × Status) :=
  tr.filterMap (childTickEv p)

/-- Count the indices in `[i, i + len)` satisfying `f`. -/
def countIn (f : Nat → Bool) (i : Nat) : Nat → Nat
  | 0 => 0
  | len + 1 => (if f i then 1 else 0) + countIn f (i + 1) len

theorem countIn_pos_iff (f : Nat → Bool) (i len : Nat) :
    0 < countIn f i len ↔ ∃ j, i ≤ j ∧ j < i + len ∧ f j = true := by
  induction len generalizing i with
  | zero =>
    simp only [countIn]
    constructor
    · omega
    · rintro ⟨j, h1, h2, _⟩
      omega
  | succ len ih =>
    by_cases hf : f i
    · constructor
      · intro _
        exact ⟨i, le_refl i, by omega, hf⟩
      · intro _
        simp only [countIn, hf, if_true]
        omega
    · have hf' : (if f i then 1 else 0) = 0 := by simp [hf]
      simp only [countIn, hf', Nat.zero_add, ih]
      constructor
      · rintro ⟨j, h1, h2, h3⟩
        exact ⟨j, by omega, by omega, h3⟩
      · rintro ⟨j, h1, h2, h3⟩
        have hji : j ≠ i := by
          intro he
          rw [he] at h3
          simp [h3] at hf
        exact ⟨j, by omega, by omega, h3⟩

theorem countIn_eq_zero_iff (f : Nat → Bool) (i len : Nat) :
    countIn f i len = 0 ↔ ∀ j, i ≤ j → j < i + len → f j = false := by
  have h := countIn_pos_iff f i len
  constructor
  · intro h0 j h1 h2
    by_contra hf
    have : 0 < countIn f i len := h.mpr ⟨j, h1, h2, by simpa using hf⟩
    omega
  · intro hall
    by_contra h0
    have : 0 < countIn f i len := by omega
    rcases h.mp this with ⟨j, h1, h2, h3⟩
    have := hall j h1 h2
    simp [this] at h3

theorem seqLoop_tr_under (p : List Nat) (cur : Nat)
    (l : List (Option (Node Ctx))) (i : Nat) (ctx : Ctx)
    (H : ∀ c : Node Ctx, some c ∈ l → ∀ (p' : List Nat) (ctx' : Ctx),
      ∀ e ∈ (tick p' c ctx').tr, ∃ q, Event.path e = p' ++ q) :
    ∀ e ∈ (seqLoop p cur i l ctx).tr,
      ∃ j q, Event.path e = p ++ j :: q ∧ i ≤ j := by
  induction l generalizing i ctx with
  | nil => intro e he; simp [seqLoop] at he
  | cons c rest ih =>
    have Hrest : ∀ c' : Node Ctx, some c' ∈ rest →
        ∀ (p' : List Nat) (ctx' : Ctx),
        ∀ e ∈ (tick p' c' ctx').tr, ∃ q, Event.path e = p' ++ q :=
      fun c' hc' => H c' (by simp [hc'])
    have skipStep : ∀ ctx' : Ctx, i < cur →
        ∀ e ∈ (seqLoop p cur (i + 1) rest ctx').tr,
          ∃ j q, Event.path e = p ++ j :: q ∧ i ≤ j := by
      intro ctx' _ e he
      rcases ih (i + 1) ctx' Hrest e he with ⟨j, q, hp, hj⟩
      exact ⟨j, q, hp, by omega⟩
    cases c with
    | none =>
      by_cases hic : i < cur
      · simp only [seqLoop, hic, if_true]
        exact skipStep ctx hic
      · intro e he
        simp [seqLoop, hic] at he
    | some child =>
      by_cases hic : i < cur
      · simp only [seqLoop, hic, if_true]
        exact skipStep ctx hic
      · have hchild := H child (by simp) (p ++ [i]) ctx
        have hchild' : ∀ e ∈ (tick (p ++ [i]) child ctx).tr,
            ∃ j q, Event.path e = p ++ j :: q ∧ i ≤ j := by
          intro e he
          rcases hchild e he with ⟨q, hq⟩
          exact ⟨i, q, by simpa using hq, le_refl i⟩
        cases hres : (tick (p ++ [i]) child ctx).res with
        | kRunning =>
          simp only [seqLoop, hic, if_false, hres]
          exact hchild'
        | kSuccess =>
          simp only [seqLoop, hic, if_false, hres]
          intro e he
          rcases List.mem_append.mp he with h | h
          · exact hchild' e h
          · rcases ih (i + 1) ((tick (p ++ [i]) child ctx).ctx) Hrest e h with
              ⟨j, q, hp, hj⟩
            exact ⟨j, q, hp, by omega⟩
        | kFailure =>
          simp only [seqLoop, hic, if_false, hres]
          exact hchild'
        | kError =>
          simp only [seqLoop, hic, if_false, hres]
          exact hchild'

theorem selLoop_tr_under (p : List Nat) (cur : Nat)
    (l : List (Option (Node Ctx))) (i : Nat) (ctx : Ctx)
    (H : ∀ c : Node Ctx, some c ∈ l → ∀ (p' : List Nat) (ctx' : Ctx),
      ∀ e ∈ (tick p' c ctx').tr, ∃ q, Event.path e = p' ++ q) :
    ∀ e ∈ (selLoop p cur i l ctx).tr,
      ∃ j q, Event.path e = p ++ j :: q ∧ i ≤ j := by
  induction l generalizing i ctx with
  | nil => intro e he; simp [selLoop] at he
  | cons c rest ih =>
    have Hrest : ∀ c' : Node Ctx, some c' ∈ rest →
        ∀ (p' : List Nat) (ctx' : Ctx),
        ∀ e ∈ (tick p' c' ctx').tr, ∃ q, Event.path e = p' ++ q :=
      fun c' hc' => H c' (by simp [hc'])
    have skipStep : ∀ ctx' : Ctx, i < cur →
        ∀ e ∈ (selLoop p cur (i + 1) rest ctx').tr,
          ∃ j q, Event.path e = p ++ j :: q ∧ i ≤ j := by
      intro ctx' _ e he
      rcases ih (i + 1) ctx' Hrest e he with ⟨j, q, hp, hj⟩
      exact ⟨j, q, hp, by omega⟩
    cases c with
    | none =>
      by_cases hic : i < cur
      · simp only [selLoop, hic, if_true]
        exact skipStep ctx hic
      · intro e he
        simp [selLoop, hic] at he
    | some child =>
      by_cases hic : i < cur
      · simp only [selLoop, hic, if_true]
        exact skipStep ctx hic
      · have hchild := H child (by simp) (p ++ [i]) ctx
        have hchild' : ∀ e ∈ (tick (p ++ [i]) child ctx).tr,
            ∃ j q, Event.path e = p ++ j :: q ∧ i ≤ j := by
          intro e he
          rcases hchild e he with ⟨q, hq⟩
          exact ⟨i, q, by simpa using hq, le_refl i⟩
        cases hres : (tick (p ++ [i]) child ctx).res with
        | kRunning =>
          simp only [selLoop, hic, if_false, hres]
          exact hchild'
        | kFailure =>
          simp only [selLoop, hic, if_false, hres]
          intro e he
          rcases List.mem_append.mp he with h | h
          · exact hchild' e h
          · rcases ih (i + 1) ((tick (p ++ [i]) child ctx).ctx) Hrest e h with
              ⟨j, q, hp, hj⟩
            exact ⟨j, q, hp, by omega⟩
        | kSuccess =>
          simp only [selLoop, hic, if_false, hres]
          exact hchild'
        | kError =>
          simp only [selLoop, hic, if_false, hres]
          exact hchild'

/-- A bit clear in an or is clear in both operands. -/
theorem testBit_false_of_or {a b : Nat} {j : Nat}
    (h : (a ||| b).testBit j = false) : a.testBit j = false := by
  rw [Nat.testBit_or] at h
  cases ha : a.testBit j <;> simp [ha] at h ⊢

theorem parLoop_tr_under (p : List Nat)
    (l : List (Option (Node Ctx))) (i : Nat) (db sb : Nat) (ctx : Ctx)
    (H : ∀ c : Node Ctx, some c ∈ l → ∀ (p' : List Nat) (ctx' : Ctx),
      ∀ e ∈ (tick p' c ctx').tr, ∃ q, Event.path e = p' ++ q) :
    ∀ e ∈ (parLoop p i db sb l ctx).tr,
      ∃ j q, Event.path e = p ++ j :: q ∧ i ≤ j ∧ db.testBit j = false := by
  induction l generalizing i db sb ctx with
  | nil => intro e he; simp [parLoop] at he
  | cons c rest ih =>
    have Hrest : ∀ c' : Node Ctx, some c' ∈ rest →
        ∀ (p' : List Nat) (ctx' : Ctx),
        ∀ e ∈ (tick p' c' ctx').tr, ∃ q, Event.path e = p' ++ q :=
      fun c' hc' => H c' (by simp [hc'])
    have upStep : ∀ (db' sb' : Nat) (ctx' : Ctx),
        (∀ j, db'.testBit j = false → db.testBit j = false) →
        ∀ e ∈ (parLoop p (i + 1) db' sb' rest ctx').tr,
          ∃ j q, Event.path e = p ++ j :: q ∧ i ≤ j ∧
            db.testBit j = false := by
      intro db' sb' ctx' hmono e he
      rcases ih (i + 1) db' sb' ctx' Hrest e he with ⟨j, q, hp, hj, hb⟩
      exact ⟨j, q, hp, by omega, hmono j hb⟩
    by_cases hdb : db.testBit i
    · cases c <;> cases hsb : sb.testBit i <;>
        · simp only [parLoop, hdb, if_true, hsb]
          exact upStep db sb ctx (fun j h => h)
    · cases c with
      | none =>
        simp only [parLoop, hdb, Bool.false_eq_true, if_false]
        exact upStep (db ||| (1 <<< i)) sb ctx
          (fun j h => testBit_false_of_or h)
      | some child =>
        have hchild := H child (by simp) (p ++ [i]) ctx
        have hchild' : ∀ e ∈ (tick (p ++ [i]) child ctx).tr,
            ∃ j q, Event.path e = p ++ j :: q ∧ i ≤ j ∧
              db.testBit j = false := by
          intro e he
          rcases hchild e he with ⟨q, hq⟩
          exact ⟨i, q, by simpa using hq, le_refl i, by simpa using hdb⟩
        cases hres : (tick (p ++ [i]) child ctx).res with
        | kRunning =>
          simp only [parLoop, hdb, Bool.false_eq_true, if_false, hres]
          intro e he
          rcases List.mem_append.mp he with h | h
          · exact hchild' e h
          · exact upStep db sb ((tick (p ++ [i]) child ctx).ctx)
              (fun j h => h) e h
        | kSuccess =>
          simp only [parLoop, hdb, Bool.false_eq_true, if_false, hres]
          intro e he
          rcases List.mem_append.mp he with h | h
          · exact hchild' e h
          · exact upStep (db ||| (1 <<< i)) (sb ||| (1 <<< i))
              ((tick (p ++ [i]) child ctx).ctx)
              (fun j h => testBit_false_of_or h) e h
        | kFailure =>
          simp only [parLoop, hdb, Bool.false_eq_true, if_false, hres]
          intro e he
          rcases List.mem_append.mp he with h | h
          · exact hchild' e h
          · exact upStep (db ||| (1 <<< i)) sb
              ((tick (p ++ [i]) child ctx).ctx)
              (fun j h => testBit_false_of_or h) e h
        | kError =>
          simp only [parLoop, hdb, Bool.false_eq_true, if_false, hres]
          intro e he
          rcases List.mem_append.mp he with h | h
          · exact hchild' e h
          · exact upStep (db ||| (1 <<< i)) sb
              ((tick (p ++ [i]) child ctx).ctx)
              (fun j h => testBit_false_of_or h) e h

theorem callEnter_path (p : List Nat) (cb : Option (Ctx → Ctx)) (ctx : Ctx) :
    ∀ e ∈ (callEnter p cb ctx).2, Event.path e = p := by
  cases cb <;> simp [callEnter, Event.path]

theorem callExit_path (p : List Nat) (cb : Option (Ctx → Ctx)) (ctx : Ctx) :
    ∀ e ∈ (callExit p cb ctx).2, Event.path e = p := by
  cases cb <;> simp [callExit, Event.path]

theorem tickLeaf_tr_path (p : List Nat) (n : Node Ctx) (ctx : Ctx) :
    ∀ e ∈ (tickLeaf p n ctx).tr, Event.path e = p := by
  cases n with
  | mk t st cur pol db sb tk en ex ch nm =>
    cases tk with
    | none => simp [tickLeaf, Event.path]
    | some f =>
      simp only [tickLeaf]
      intro e he
      simp only [List.mem_append, List.mem_singleton] at he
      rcases he with (he | he) | he
      · split at he
        · simp at he
        · exact callEnter_path p en ctx e he
      · split at he <;> split at he
        · simp at he
        · exact callExit_path p ex _ e he
        · simp at he
        · exact callExit_path p ex _ e he
      · subst he
        simp [Event.path]

/-- Every event in a tick trace has the tick's path as a prefix. -/
theorem tick_tr_under (n : Node Ctx) :
    ∀ (p : List Nat) (ctx : Ctx),
      ∀ e ∈ (tick p n ctx).tr, ∃ q, Event.path e = p ++ q := by
  induction n using Node.sizeOf_induction with
  | _ n ih =>
    intro p ctx
    cases n with
    | mk t st cur pol db sb tk en ex ch nm =>
      have H : ∀ c : Node Ctx, some c ∈ ch → ∀ (p' : List Nat) (ctx' : Ctx),
          ∀ e ∈ (tick p' c ctx').tr, ∃ q, Event.path e = p' ++ q := by
        intro c hc
        apply ih
        have h1 : sizeOf c < sizeOf ch := sizeOf_lt_of_mem_children hc
        have h2 : sizeOf ch <
            sizeOf (Node.mk t st cur pol db sb tk en ex ch nm) := by
          simp
          omega
        omega
      have own : ∀ e : Event, Event.path e = p → ∃ q, Event.path e = p ++ q :=
        fun e h => ⟨[], by simpa using h⟩
      have henter : ∀ e ∈ (if st = Status.kRunning
          then (ctx, ([] : List Event))
          else callEnter p en ctx).2, Event.path e = p := by
        split
        · simp
        · exact callEnter_path p en ctx
      cases t
      case kAction =>
        simp only [tick, Node.type_]
        intro e he
        exact own e (tickLeaf_tr_path p _ ctx e he)
      case kCondition =>
        simp only [tick, Node.type_]
        intro e he
        exact own e (tickLeaf_tr_path p _ ctx e he)
      case kSequence =>
        have hloop : ∀ (cur0 : Nat) (ctx0 : Ctx) (e : Event),
            e ∈ (seqLoop p cur0 0 ch ctx0).tr →
            ∃ q, Event.path e = p ++ q := by
          intro cur0 ctx0 e he
          rcases seqLoop_tr_under p cur0 ch 0 ctx0 H e he with ⟨j, q, hp, _⟩
          exact ⟨j :: q, hp⟩
        simp only [tick, Node.type_, tickSequence]
        split
        all_goals intro e he
        all_goals simp only [List.mem_append, List.mem_singleton] at he
        all_goals repeat' rcases he with he | he
        all_goals
          first
          | exact hloop _ _ e he
          | exact own e (henter e he)
          | exact own e (callEnter_path p en ctx e he)
          | exact own e (callExit_path p ex _ e he)
          | (subst he
             exact ⟨[], by simp [Event.path]⟩)
          | exact ⟨[], by simp [Event.path]⟩
          | exact absurd he (List.not_mem_nil e)
      case kSelector =>
        have hloop : ∀ (cur0 : Nat) (ctx0 : Ctx) (e : Event),
            e ∈ (selLoop p cur0 0 ch ctx0).tr →
            ∃ q, Event.path e = p ++ q := by
          intro cur0 ctx0 e he
          rcases selLoop_tr_under p cur0 ch 0 ctx0 H e he with ⟨j, q, hp, _⟩
          exact ⟨j :: q, hp⟩
        simp only [tick, Node.type_, tickSelector]
        split
        all_goals intro e he
        all_goals simp only [List.mem_append, List.mem_singleton] at he
        all_goals repeat' rcases he with he | he
        all_goals
          first
          | exact hloop _ _ e he
          | exact own e (henter e he)
          | exact own e (callEnter_path p en ctx e he)
          | exact own e (callExit_path p ex _ e he)
          | (subst he
             exact ⟨[], by simp [Event.path]⟩)
          | exact ⟨[], by simp [Event.path]⟩
          | exact absurd he (List.not_mem_nil e)
      case kParallel =>
        have hloop : ∀ (db0 sb0 : Nat) (ctx0 : Ctx) (e : Event),
            e ∈ (parLoop p 0 db0 sb0 ch ctx0).tr →
            ∃ q, Event.path e = p ++ q := by
          intro db0 sb0 ctx0 e he
          rcases parLoop_tr_under p ch 0 db0 sb0 ctx0 H e he with
            ⟨j, q, hp, _, _⟩
          exact ⟨j :: q, hp⟩
        cases pol <;>
          · simp only [tick, Node.type_, tickParallel.eq_def]
            split_ifs
            all_goals intro e he
            all_goals simp only [List.mem_append, List.mem_singleton] at he
            all_goals repeat' rcases he with he | he
            all_goals
              first
              | exact hloop _ _ _ e he
              | exact own e (henter e he)
              | exact own e (callEnter_path p en ctx e he)
              | exact own e (callExit_path p ex _ e he)
              | (subst he
                 exact ⟨[], by simp [Event.path]⟩)
              | exact ⟨[], by simp [Event.path]⟩
              | exact absurd he (List.not_mem_nil e)
      case kInverter =>
        simp only [tick, Node.type_]
        match ch with
        | [] => simp [tickInverter, Event.path]
        | [none] => simp [tickInverter, Event.path]
        | [some child] =>
          have hchild : ∀ (ctx0 : Ctx) (e : Event),
              e ∈ (tick (p ++ [0]) child ctx0).tr →
              ∃ q, Event.path e = p ++ q := by
            intro ctx0 e he
            rcases H child (by simp) (p ++ [0]) ctx0 e he with ⟨q, hq⟩
            exact ⟨0 :: q, by simpa using hq⟩
          simp only [tickInverter]
          intro e he
          simp only [List.mem_append, List.mem_singleton] at he
          rcases he with ((he | he) | he) | he
          · exact own e (henter e he)
          · exact hchild _ e he
          · repeat' split at he
            all_goals
              first
              | exact absurd he (List.not_mem_nil e)
              | exact own e (callExit_path p ex _ e he)
          · exact own e (by subst he; simp [Event.path])
        | c :: c2 :: rest =>
          cases c <;> simp [tickInverter, Event.path]

theorem path_ne_of_cons {p : List Nat} {j : Nat} {q : List Nat} :
    p ++ j :: q ≠ p := by
  intro h
  have := congrArg List.length h
  simp at this

theorem ownTickEv_eq_none {p : List Nat} {e : Event}
    (h : Event.path e ≠ p) : ownTickEv p e = none := by
  cases e with
  | enterEv q => simp [ownTickEv]
  | exitEv q => simp [ownTickEv]
  | tickEv q s =>
    simp [Event.path] at h
    simp [ownTickEv, h]

theorem filterMap_nil_of {A B : Type} (f : A → Option B) (l : List A)
    (h : ∀ a ∈ l, f a = none) : l.filterMap f = [] := by
  induction l with
  | nil => rfl
  | cons a rest ih =>
    rw [List.filterMap_cons, h a (by simp)]
    exact ih fun a' ha' => h a' (by simp [ha'])

theorem fm_callEnter (p p' : List Nat) (cb : Option (Ctx → Ctx)) (ctx : Ctx) :
    (callEnter p cb ctx).2.filterMap (ownTickEv p') = [] := by
  cases cb <;> simp [callEnter, ownTickEv]

theorem fm_callExit (p p' : List Nat) (cb : Option (Ctx → Ctx)) (ctx : Ctx) :
    (callExit p cb ctx).2.filterMap (ownTickEv p') = [] := by
  cases cb <;> simp [callExit, ownTickEv]

/-- A tick trace contains exactly one tick event at its own path, and it
carries the returned status. -/
theorem tick_tr_ownTick (p : List Nat) (n : Node Ctx) (ctx : Ctx) :
    (tick p n ctx).tr.filterMap (ownTickEv p) = [(tick p n ctx).res] := by
  cases n with
  | mk t st cur pol db sb tk en ex ch nm =>
    have H : ∀ c : Node Ctx, some c ∈ ch → ∀ (p' : List Nat) (ctx' : Ctx),
        ∀ e ∈ (tick p' c ctx').tr, ∃ q, Event.path e = p' ++ q :=
      fun c _ p' ctx' => tick_tr_under c p' ctx'
    have henterIf : ∀ ctx' : Ctx,
        ((if st = Status.kRunning then (ctx', ([] : List Event))
          else callEnter p en ctx').2).filterMap (ownTickEv p) = [] := by
      intro ctx'
      split
      · simp
      · exact fm_callEnter p p en ctx'
    cases t
    case kAction =>
      simp only [tick, Node.type_]
      cases tk with
      | none => simp [tickLeaf, ownTickEv]
      | some f =>
        simp only [tickLeaf, List.filterMap_append]
        rw [henterIf]
        split <;> split <;> simp [callExit, ownTickEv] <;>
          (cases ex <;> simp [callExit, ownTickEv])
    case kCondition =>
      simp only [tick, Node.type_]
      cases tk with
      | none => simp [tickLeaf, ownTickEv]
      | some f =>
        simp only [tickLeaf, List.filterMap_append]
        rw [henterIf]
        split <;> split <;> simp [callExit, ownTickEv] <;>
          (cases ex <;> simp [callExit, ownTickEv])
    case kSequence =>
      have hloop : ∀ (cur0 : Nat) (ctx0 : Ctx),
          (seqLoop p cur0 0 ch ctx0).tr.filterMap (ownTickEv p) = [] := by
        intro cur0 ctx0
        refine filterMap_nil_of _ _ fun e he => ownTickEv_eq_none ?_
        rcases seqLoop_tr_under p cur0 ch 0 ctx0 H e he with ⟨j, q, hp, _⟩
        rw [hp]
        exact path_ne_of_cons
      simp only [tick, Node.type_, tickSequence]
      split <;>
        simp [List.filterMap_append, henterIf, hloop, fm_callExit, ownTickEv]
    case kSelector =>
      have hloop : ∀ (cur0 : Nat) (ctx0 : Ctx),
          (selLoop p cur0 0 ch ctx0).tr.filterMap (ownTickEv p) = [] := by
        intro cur0 ctx0
        refine filterMap_nil_of _ _ fun e he => ownTickEv_eq_none ?_
        rcases selLoop_tr_under p cur0 ch 0 ctx0 H e he with ⟨j, q, hp, _⟩
        rw [hp]
        exact path_ne_of_cons
      simp only [tick, Node.type_, tickSelector]
      split <;>
        simp [List.filterMap_append, henterIf, hloop, fm_callExit, ownTickEv]
    case kParallel =>
      have hloop : ∀ (db0 sb0 : Nat) (ctx0 : Ctx),
          (parLoop p 0 db0 sb0 ch ctx0).tr.filterMap (ownTickEv p) = [] := by
        intro db0 sb0 ctx0
        refine filterMap_nil_of _ _ fun e he => ownTickEv_eq_none ?_
        rcases parLoop_tr_under p ch 0 db0 sb0 ctx0 H e he with ⟨j, q, hp, _, _⟩
        rw [hp]
        exact path_ne_of_cons
      cases pol <;>
        · simp only [tick, Node.type_, tickParallel.eq_def]
          split_ifs <;>
            simp [List.filterMap_append, henterIf, hloop, fm_callExit,
              fm_callEnter, ownTickEv]
    case kInverter =>
      simp only [tick, Node.type_]
      match ch with
      | [] => simp [tickInverter, ownTickEv]
      | [none] => simp [tickInverter, ownTickEv]
      | [some child] =>
        have hchild : ∀ ctx0 : Ctx,
            (tick (p ++ [0]) child ctx0).tr.filterMap (ownTickEv p) = [] := by
          intro ctx0
          refine filterMap_nil_of _ _ fun e he => ownTickEv_eq_none ?_
          rcases tick_tr_under child (p ++ [0]) ctx0 e he with ⟨q, hq⟩
          rw [hq]
          have : p ++ [0] ++ q = p ++ 0 :: q := by simp
          rw [this]
          exact path_ne_of_cons
        simp only [tickInverter, List.filterMap_append]
        rw [henterIf, hchild]
        split <;> split <;> simp [callExit, ownTickEv] <;>
          (cases ex <;> simp [callExit, ownTickEv])
      | c :: c2 :: rest =>
        cases c <;> simp [tickInverter, ownTickEv]

theorem childTicks_append (p : List Nat) (a b : List Event) :
    childTicks p (a ++ b) = childTicks p a ++ childTicks p b :=
  List.filterMap_append a b (childTickEv p)

theorem dropPref_self (p : List Nat) : dropPref p p = some [] := by
  simpa using dropPref_append p []

theorem childTicks_own (p : List Nat) (s : Status) :
    childTicks p [Event.tickEv p s] = [] := by
  simp [childTicks, childTickEv, dropPref_self]

theorem childTicks_callEnter (p p' : List Nat) (cb : Option (Ctx → Ctx))
    (ctx : Ctx) : childTicks p' (callEnter p cb ctx).2 = [] := by
  cases cb <;> simp [callEnter, childTicks, childTickEv]

theorem childTicks_callExit (p p' : List Nat) (cb : Option (Ctx → Ctx))
    (ctx : Ctx) : childTicks p' (callExit p cb ctx).2 = [] := by
  cases cb <;> simp [callExit, childTicks, childTickEv]

/-- The direct-child tick results recorded in the trace of a tick of the
child at index `j` consist exactly of that child's own result. -/
theorem childTicks_child (p : List Nat) (j : Nat) (c : Node Ctx)
    (ctx : Ctx) :
    childTicks p (tick (p ++ [j]) c ctx).tr =
      [(j, (tick (p ++ [j]) c ctx).res)] := by
  have key : ∀ tr : List Event,
      (∀ e ∈ tr, ∃ q, Event.path e = (p ++ [j]) ++ q) →
      tr.filterMap (childTickEv p) =
        (tr.filterMap (ownTickEv (p ++ [j]))).map (fun s => (j, s)) := by
    intro tr
    induction tr with
    | nil => intro _; rfl
    | cons e rest ih =>
      intro h
      have hrest := ih fun e' he' => h e' (by simp [he'])
      rcases h e (by simp) with ⟨q, hq⟩
      cases e with
      | enterEv q' =>
        simp [List.filterMap_cons, childTickEv, ownTickEv, hrest]
      | exitEv q' =>
        simp [List.filterMap_cons, childTickEv, ownTickEv, hrest]
      | tickEv q' s =>
        simp only [Event.path] at hq
        subst hq
        cases q with
        | nil =>
          simp only [List.append_nil]
          rw [List.filterMap_cons, List.filterMap_cons]
          have h1 : childTickEv p (Event.tickEv (p ++ [j]) s) = some (j, s) := by
            simp [childTickEv, dropPref_append]
          have h2 : ownTickEv (p ++ [j]) (Event.tickEv (p ++ [j]) s) =
              some s := by
            simp [ownTickEv]
          rw [h1, h2]
          simp [hrest]
        | cons a as =>
          rw [List.filterMap_cons, List.filterMap_cons]
          have h1 : childTickEv p (Event.tickEv (p ++ [j] ++ a :: as) s) =
              none := by
            simp [childTickEv, dropPref_append]
          have h2 : ownTickEv (p ++ [j]) (Event.tickEv (p ++ [j] ++ a :: as) s) =
              none := by
            simp [ownTickEv]
          rw [h1, h2]
          simp [hrest]
  have h := key (tick (p ++ [j]) c ctx).tr (tick_tr_under c (p ++ [j]) ctx)
  rw [childTicks, h, tick_tr_ownTick]
  simp

/-- What the sequence scan's stop tells us about the recorded child tick
results `ct`: children are ticked in ascending contiguous order starting
at the effective cursor `estart`; every tick before the stopping one is
Success; a Running / deciding-terminal child is last; a null child stops
the scan with all earlier ticks Success. -/
def seqStopSpec (estart iend : Nat) (l : List (Option (Node Ctx))) (i : Nat)
    (ct : List (Nat × Status)) : ScanStop → Prop
  | ScanStop.completed =>
      (∀ x ∈ ct, x.2 = Status.kSuccess) ∧
      ct.map Prod.fst = List.range' estart (iend - estart)
  | ScanStop.nullAt j =>
      (∀ x ∈ ct, x.2 = Status.kSuccess) ∧
      ct.map Prod.fst = List.range' estart (j - estart) ∧
      l.get? (j - i) = some none ∧ estart ≤ j ∧ j < iend
  | ScanStop.runningAt j =>
      ∃ base, ct = base ++ [(j, Status.kRunning)] ∧
        (∀ x ∈ base, x.2 = Status.kSuccess) ∧
        base.map Prod.fst = List.range' estart (j - estart) ∧
        estart ≤ j ∧ j < iend
  | ScanStop.haltAt j s =>
      ∃ base, ct = base ++ [(j, s)] ∧
        (∀ x ∈ base, x.2 = Status.kSuccess) ∧
        base.map Prod.fst = List.range' estart (j - estart) ∧
        (s = Status.kFailure ∨ s = Status.kError) ∧
        estart ≤ j ∧ j < iend

theorem seqLoop_spec (p : List Nat) (cur : Nat)
    (l : List (Option (Node Ctx))) (i : Nat) (ctx : Ctx) :
    (seqLoop p cur i l ctx).children.length = l.length ∧
    (∀ k, i + k < cur →
      (seqLoop p cur i l ctx).children.get? k = l.get? k) ∧
    seqStopSpec (max cur i) (i + l.length) l i
      (childTicks p (seqLoop p cur i l ctx).tr)
      (seqLoop p cur i l ctx).stop := by
  induction l generalizing i ctx with
  | nil =>
    simp only [seqLoop]
    refine ⟨by simp, fun k _ => by simp, ?_⟩
    simp only [seqStopSpec, childTicks, List.filterMap_nil]
    have h0 : i + 0 - max cur i = 0 := by omega
    simp [h0]
  | cons c rest ih =>
    by_cases hic : i < cur
    · have hmax : max cur (i + 1) = max cur i := by omega
      have transport : ∀ (ctx1 : Ctx),
          seqStopSpec (max cur (i + 1)) ((i + 1) + rest.length) rest (i + 1)
            (childTicks p (seqLoop p cur (i + 1) rest ctx1).tr)
            (seqLoop p cur (i + 1) rest ctx1).stop →
          seqStopSpec (max cur i) (i + (c :: rest).length) (c :: rest) i
            (childTicks p (seqLoop p cur (i + 1) rest ctx1).tr)
            (seqLoop p cur (i + 1) rest ctx1).stop := by
        intro ctx1 hspec
        have hlen : (i + 1) + rest.length = i + (c :: rest).length := by
          simp
          omega
        rw [hmax, hlen] at hspec
        cases hstop : (seqLoop p cur (i + 1) rest ctx1).stop with
        | completed => rw [hstop] at hspec; exact hspec
        | nullAt j =>
          rw [hstop] at hspec
          simp only [seqStopSpec] at hspec ⊢
          rcases hspec with ⟨a1, a2, a3, a4, a5⟩
          refine ⟨a1, a2, ?_, a4, a5⟩
          have hji : i < j := by omega
          have hsub : j - i = (j - (i + 1)) + 1 := by omega
          rw [hsub]
          simpa using a3
        | runningAt j => rw [hstop] at hspec; exact hspec
        | haltAt j s => rw [hstop] at hspec; exact hspec
      cases c with
      | none =>
        simp only [seqLoop, hic, if_true]
        rcases ih (i + 1) ctx with ⟨ih1, ih2, ih3⟩
        refine ⟨by simp [ih1], ?_, transport ctx ih3⟩
        intro k hk
        cases k with
        | zero => simp
        | succ k' =>
          simp only [List.get?_cons_succ]
          exact ih2 k' (by omega)
      | some child =>
        simp only [seqLoop, hic, if_true]
        rcases ih (i + 1) ctx with ⟨ih1, ih2, ih3⟩
        refine ⟨by simp [ih1], ?_, transport ctx ih3⟩
        intro k hk
        cases k with
        | zero => simp
        | succ k' =>
          simp only [List.get?_cons_succ]
          exact ih2 k' (by omega)
    · have hmaxi : max cur i = i := by omega
      cases c with
      | none =>
        simp only [seqLoop, hic, if_false]
        refine ⟨by simp, fun k hk => by omega, ?_⟩
        simp only [seqStopSpec, childTicks, List.filterMap_nil, hmaxi]
        refine ⟨by simp, by simp, by simp, by omega, by simp⟩
      | some child =>
        have hct := childTicks_child p i child ctx
        cases hres : (tick (p ++ [i]) child ctx).res with
        | kRunning =>
          simp only [seqLoop, hic, if_false, hres]
          refine ⟨by simp, fun k hk => by omega, ?_⟩
          simp only [seqStopSpec, hmaxi]
          rw [hct, hres]
          exact ⟨[], by simp, by simp, by simp, by omega, by simp⟩
        | kFailure =>
          simp only [seqLoop, hic, if_false, hres]
          refine ⟨by simp, fun k hk => by omega, ?_⟩
          simp only [seqStopSpec, hmaxi]
          rw [hct, hres]
          exact ⟨[], by simp, by simp, by simp, by simp, by omega, by simp⟩
        | kError =>
          simp only [seqLoop, hic, if_false, hres]
          refine ⟨by simp, fun k hk => by omega, ?_⟩
          simp only [seqStopSpec, hmaxi]
          rw [hct, hres]
          exact ⟨[], by simp, by simp, by simp, by simp, by omega, by simp⟩
        | kSuccess =>
          simp only [seqLoop, hic, if_false, hres]
          rcases ih (i + 1) ((tick (p ++ [i]) child ctx).ctx) with
            ⟨ih1, ih2, ih3⟩
          have hmax1 : max cur (i + 1) = i + 1 := by omega
          rw [hmax1] at ih3
          refine ⟨by simp [ih1], fun k hk => by omega, ?_⟩
          have htr : childTicks p
              ((tick (p ++ [i]) child ctx).tr ++
                (seqLoop p cur (i + 1) rest
                  ((tick (p ++ [i]) child ctx).ctx)).tr) =
              (i, Status.kSuccess) ::
                childTicks p (seqLoop p cur (i + 1) rest
                  ((tick (p ++ [i]) child ctx).ctx)).tr := by
            rw [childTicks_append, hct, hres]
            simp
          rw [htr, hmaxi]
          have hrange : ∀ m : Nat, i :: List.range' (i + 1) m =
              List.range' i (m + 1) := by
            intro m
            rw [List.range'_succ]
          cases hstop : (seqLoop p cur (i + 1) rest
              ((tick (p ++ [i]) child ctx).ctx)).stop with
          | completed =>
            rw [hstop] at ih3
            simp only [seqStopSpec] at ih3 ⊢
            rcases ih3 with ⟨a1, a2⟩
            constructor
            · intro x hx
              rcases List.mem_cons.mp hx with h | h
              · rw [h]
              · exact a1 x h
            · simp only [List.map_cons, a2]
              have e1 : (i + 1) + rest.length - (i + 1) = rest.length := by
                omega
              have e2 : i + (some child :: rest).length - i =
                  rest.length + 1 := by
                simp only [List.length_cons]
                omega
              rw [e1, e2]
              exact hrange rest.length
          | nullAt j =>
            rw [hstop] at ih3
            simp only [seqStopSpec] at ih3 ⊢
            rcases ih3 with ⟨a1, a2, a3, a4, a5⟩
            refine ⟨?_, ?_, ?_, by omega, by simp at a5 ⊢; omega⟩
            · intro x hx
              rcases List.mem_cons.mp hx with h | h
              · rw [h]
              · exact a1 x h
            · simp only [List.map_cons, a2]
              have e1 : j - (i + 1) = (j - i) - 1 := by omega
              have e2 : j - i = ((j - i) - 1) + 1 := by omega
              rw [e1, hrange, ← e2]
            · have hsub : j - i = (j - (i + 1)) + 1 := by omega
              rw [hsub]
              simpa using a3
          | runningAt j =>
            rw [hstop] at ih3
            simp only [seqStopSpec] at ih3 ⊢
            rcases ih3 with ⟨base, b1, b2, b3, b4, b5⟩
            refine ⟨(i, Status.kSuccess) :: base, ?_, ?_, ?_, by omega,
              by simp at b5 ⊢; omega⟩
            · rw [b1]
              simp
            · intro x hx
              rcases List.mem_cons.mp hx with h | h
              · rw [h]
              · exact b2 x h
            · simp only [List.map_cons, b3]
              have e1 : j - (i + 1) = (j - i) - 1 := by omega
              have e2 : j - i = ((j - i) - 1) + 1 := by omega
              rw [e1, hrange, ← e2]
          | haltAt j s =>
            rw [hstop] at ih3
            simp only [seqStopSpec] at ih3 ⊢
            rcases ih3 with ⟨base, b1, b2, b3, b4, b5, b6⟩
            refine ⟨(i, Status.kSuccess) :: base, ?_, ?_, ?_, b4, by omega,
              by simp at b6 ⊢; omega⟩
            · rw [b1]
              simp
            · intro x hx
              rcases List.mem_cons.mp hx with h | h
              · rw [h]
              · exact b2 x h
            · simp only [List.map_cons, b3]
              have e1 : j - (i + 1) = (j - i) - 1 := by omega
              have e2 : j - i = ((j - i) - 1) + 1 := by omega
              rw [e1, hrange, ← e2]

/-- Selector analogue of `selStopSpec`: the scan continues over Failure
children and stops on Success, Error, Running or a null child. -/
def selStopSpec (estart iend : Nat) (l : List (Option (Node Ctx))) (i : Nat)
    (ct : List (Nat × Status)) : ScanStop → Prop
  | ScanStop.completed =>
      (∀ x ∈ ct, x.2 = Status.kFailure) ∧
      ct.map Prod.fst = List.range' estart (iend - estart)
  | ScanStop.nullAt j =>
      (∀ x ∈ ct, x.2 = Status.kFailure) ∧
      ct.map Prod.fst = List.range' estart (j - estart) ∧
      l.get? (j - i) = some none ∧ estart ≤ j ∧ j < iend
  | ScanStop.runningAt j =>
      ∃ base, ct = base ++ [(j, Status.kRunning)] ∧
        (∀ x ∈ base, x.2 = Status.kFailure) ∧
        base.map Prod.fst = List.range' estart (j - estart) ∧
        estart ≤ j ∧ j < iend
  | ScanStop.haltAt j s =>
      ∃ base, ct = base ++ [(j, s)] ∧
        (∀ x ∈ base, x.2 = Status.kFailure) ∧
        base.map Prod.fst = List.range' estart (j - estart) ∧
        (s = Status.kSuccess ∨ s = Status.kError) ∧
        estart ≤ j ∧ j < iend

theorem selLoop_spec (p : List Nat) (cur : Nat)
    (l : List (Option (Node Ctx))) (i : Nat) (ctx : Ctx) :
    (selLoop p cur i l ctx).children.length = l.length ∧
    (∀ k, i + k < cur →
      (selLoop p cur i l ctx).children.get? k = l.get? k) ∧
    selStopSpec (max cur i) (i + l.length) l i
      (childTicks p (selLoop p cur i l ctx).tr)
      (selLoop p cur i l ctx).stop := by
  induction l generalizing i ctx with
  | nil =>
    simp only [selLoop]
    refine ⟨by simp, fun k _ => by simp, ?_⟩
    simp only [selStopSpec, childTicks, List.filterMap_nil]
    have h0 : i + 0 - max cur i = 0 := by omega
    simp [h0]
  | cons c rest ih =>
    by_cases hic : i < cur
    · have hmax : max cur (i + 1) = max cur i := by omega
      have transport : ∀ (ctx1 : Ctx),
          selStopSpec (max cur (i + 1)) ((i + 1) + rest.length) rest (i + 1)
            (childTicks p (selLoop p cur (i + 1) rest ctx1).tr)
            (selLoop p cur (i + 1) rest ctx1).stop →
          selStopSpec (max cur i) (i + (c :: rest).length) (c :: rest) i
            (childTicks p (selLoop p cur (i + 1) rest ctx1).tr)
            (selLoop p cur (i + 1) rest ctx1).stop := by
        intro ctx1 hspec
        have hlen : (i + 1) + rest.length = i + (c :: rest).length := by
          simp
          omega
        rw [hmax, hlen] at hspec
        cases hstop : (selLoop p cur (i + 1) rest ctx1).stop with
        | completed => rw [hstop] at hspec; exact hspec
        | nullAt j =>
          rw [hstop] at hspec
          simp only [selStopSpec] at hspec ⊢
          rcases hspec with ⟨a1, a2, a3, a4, a5⟩
          refine ⟨a1, a2, ?_, a4, a5⟩
          have hji : i < j := by omega
          have hsub : j - i = (j - (i + 1)) + 1 := by omega
          rw [hsub]
          simpa using a3
        | runningAt j => rw [hstop] at hspec; exact hspec
        | haltAt j s => rw [hstop] at hspec; exact hspec
      cases c with
      | none =>
        simp only [selLoop, hic, if_true]
        rcases ih (i + 1) ctx with ⟨ih1, ih2, ih3⟩
        refine ⟨by simp [ih1], ?_, transport ctx ih3⟩
        intro k hk
        cases k with
        | zero => simp
        | succ k' =>
          simp only [List.get?_cons_succ]
          exact ih2 k' (by omega)
      | some child =>
        simp only [selLoop, hic, if_true]
        rcases ih (i + 1) ctx with ⟨ih1, ih2, ih3⟩
        refine ⟨by simp [ih1], ?_, transport ctx ih3⟩
        intro k hk
        cases k with
        | zero => simp
        | succ k' =>
          simp only [List.get?_cons_succ]
          exact ih2 k' (by omega)
    · have hmaxi : max cur i = i := by omega
      cases c with
      | none =>
        simp only [selLoop, hic, if_false]
        refine ⟨by simp, fun k hk => by omega, ?_⟩
        simp only [selStopSpec, childTicks, List.filterMap_nil, hmaxi]
        refine ⟨by simp, by simp, by simp, by omega, by simp⟩
      | some child =>
        have hct := childTicks_child p i child ctx
        cases hres : (tick (p ++ [i]) child ctx).res with
        | kRunning =>
          simp only [selLoop, hic, if_false, hres]
          refine ⟨by simp, fun k hk => by omega, ?_⟩
          simp only [selStopSpec, hmaxi]
          rw [hct, hres]
          exact ⟨[], by simp, by simp, by simp, by omega, by simp⟩
        | kSuccess =>
          simp only [selLoop, hic, if_false, hres]
          refine ⟨by simp, fun k hk => by omega, ?_⟩
          simp only [selStopSpec, hmaxi]
          rw [hct, hres]
          exact ⟨[], by simp, by simp, by simp, by simp, by omega, by simp⟩
        | kError =>
          simp only [selLoop, hic, if_false, hres]
          refine ⟨by simp, fun k hk => by omega, ?_⟩
          simp only [selStopSpec, hmaxi]
          rw [hct, hres]
          exact ⟨[], by simp, by simp, by simp, by simp, by omega, by simp⟩
        | kFailure =>
          simp only [selLoop, hic, if_false, hres]
          rcases ih (i + 1) ((tick (p ++ [i]) child ctx).ctx) with
            ⟨ih1, ih2, ih3⟩
          have hmax1 : max cur (i + 1) = i + 1 := by omega
          rw [hmax1] at ih3
          refine ⟨by simp [ih1], fun k hk => by omega, ?_⟩
          have htr : childTicks p
              ((tick (p ++ [i]) child ctx).tr ++
                (selLoop p cur (i + 1) rest
                  ((tick (p ++ [i]) child ctx).ctx)).tr) =
              (i, Status.kFailure) ::
                childTicks p (selLoop p cur (i + 1) rest
                  ((tick (p ++ [i]) child ctx).ctx)).tr := by
            rw [childTicks_append, hct, hres]
            simp
          rw [htr, hmaxi]
          have hrange : ∀ m : Nat, i :: List.range' (i + 1) m =
              List.range' i (m + 1) := by
            intro m
            rw [List.range'_succ]
          cases hstop : (selLoop p cur (i + 1) rest
              ((tick (p ++ [i]) child ctx).ctx)).stop with
          | completed =>
            rw [hstop] at ih3
            simp only [selStopSpec] at ih3 ⊢
            rcases ih3 with ⟨a1, a2⟩
            constructor
            · intro x hx
              rcases List.mem_cons.mp hx with h | h
              · rw [h]
              · exact a1 x h
            · simp only [List.map_cons, a2]
              have e1 : (i + 1) + rest.length - (i + 1) = rest.length := by
                omega
              have e2 : i + (some child :: rest).length - i =
                  rest.length + 1 := by
                simp only [List.length_cons]
                omega
              rw [e1, e2]
              exact hrange rest.length
          | nullAt j =>
            rw [hstop] at ih3
            simp only [selStopSpec] at ih3 ⊢
            rcases ih3 with ⟨a1, a2, a3, a4, a5⟩
            refine ⟨?_, ?_, ?_, by omega, by simp at a5 ⊢; omega⟩
            · intro x hx
              rcases List.mem_cons.mp hx with h | h
              · rw [h]
              · exact a1 x h
            · simp only [List.map_cons, a2]
              have e1 : j - (i + 1) = (j - i) - 1 := by omega
              have e2 : j - i = ((j - i) - 1) + 1 := by omega
              rw [e1, hrange, ← e2]
            · have hsub : j - i = (j - (i + 1)) + 1 := by omega
              rw [hsub]
              simpa using a3
          | runningAt j =>
            rw [hstop] at ih3
            simp only [selStopSpec] at ih3 ⊢
            rcases ih3 with ⟨base, b1, b2, b3, b4, b5⟩
            refine ⟨(i, Status.kFailure) :: base, ?_, ?_, ?_, by omega,
              by simp at b5 ⊢; omega⟩
            · rw [b1]
              simp
            · intro x hx
              rcases List.mem_cons.mp hx with h | h
              · rw [h]
              · exact b2 x h
            · simp only [List.map_cons, b3]
              have e1 : j - (i + 1) = (j - i) - 1 := by omega
              have e2 : j - i = ((j - i) - 1) + 1 := by omega
              rw [e1, hrange, ← e2]
          | haltAt j s =>
            rw [hstop] at ih3
            simp only [selStopSpec] at ih3 ⊢
            rcases ih3 with ⟨base, b1, b2, b3, b4, b5, b6⟩
            refine ⟨(i, Status.kFailure) :: base, ?_, ?_, ?_, b4, by omega,
              by simp at b6 ⊢; omega⟩
            · rw [b1]
              simp
            · intro x hx
              rcases List.mem_cons.mp hx with h | h
              · rw [h]
              · exact b2 x h
            · simp only [List.map_cons, b3]
              have e1 : j - (i + 1) = (j - i) - 1 := by omega
              have e2 : j - i = ((j - i) - 1) + 1 := by omega
              rw [e1, hrange, ← e2]

theorem childTicks_enterIf (p p' : List Nat) (st : Status)
    (en : Option (Ctx → Ctx)) (ctx : Ctx) :
    childTicks p' ((if st = Status.kRunning then (ctx, ([] : List Event))
      else callEnter p en ctx)).2 = [] := by
  split
  · simp [childTicks]
  · exact childTicks_callEnter p p' en ctx

/-- Bridge between `Node::Tick` on a Sequence node and the scan loop:
the recorded child ticks are those of the loop, the updated children are
the loop's, and result/cursor are determined by how the scan stopped. -/
theorem tick_seq_bridge (p : List Nat) (n : Node Ctx) (ctx : Ctx)
    (ht : n.type_ = NodeType.kSequence) :
    ∃ ctx0 : Ctx,
      childTicks p (tick p n ctx).tr =
        childTicks p (seqLoop p
          (if n.status_ = Status.kRunning then n.current_child_ else 0)
          0 n.children_ ctx0).tr ∧
      (tick p n ctx).node.children_ =
        (seqLoop p
          (if n.status_ = Status.kRunning then n.current_child_ else 0)
          0 n.children_ ctx0).children ∧
      (match (seqLoop p
          (if n.status_ = Status.kRunning then n.current_child_ else 0)
          0 n.children_ ctx0).stop with
       | ScanStop.completed =>
           (tick p n ctx).res = Status.kSuccess ∧
           (tick p n ctx).node.current_child_ =
             (if n.status_ = Status.kRunning then n.current_child_ else 0)
       | ScanStop.nullAt _ =>
           (tick p n ctx).res = Status.kError ∧
           (tick p n ctx).node.current_child_ =
             (if n.status_ = Status.kRunning then n.current_child_ else 0)
       | ScanStop.runningAt i =>
           (tick p n ctx).res = Status.kRunning ∧
           (tick p n ctx).node.current_child_ = i
       | ScanStop.haltAt i s =>
           (tick p n ctx).res = s ∧
           (tick p n ctx).node.current_child_ = i) := by
  cases n with
  | mk t st cur pol db sb tk en ex ch nm =>
    simp only [Node.type_] at ht
    subst ht
    refine ⟨(if st = Status.kRunning then (ctx, ([] : List Event))
      else callEnter p en ctx).1, ?_⟩
    simp only [tick, Node.type_, tickSequence, Node.status_, Node.children_,
      Node.current_child_]
    cases hstop : (seqLoop p (if st = Status.kRunning then cur else 0) 0 ch
        ((if st = Status.kRunning then (ctx, ([] : List Event))
          else callEnter p en ctx).1)).stop with
    | completed =>
      simp [hstop, childTicks_append, childTicks_enterIf, childTicks_callExit,
        childTicks_own, Node.children_, Node.current_child_]
    | nullAt j =>
      simp [hstop, childTicks_append, childTicks_enterIf, childTicks_callExit,
        childTicks_own, Node.children_, Node.current_child_]
    | runningAt j =>
      simp [hstop, childTicks_append, childTicks_enterIf, childTicks_callExit,
        childTicks_own, Node.children_, Node.current_child_]
    | haltAt j s =>
      simp [hstop, childTicks_append, childTicks_enterIf, childTicks_callExit,
        childTicks_own, Node.children_, Node.current_child_]

end BTSpec
namespace BTSpec
variable {Ctx : Type}

/-- Bridge between `Node::Tick` on a Selector node and the scan loop:
the recorded child ticks are those of the loop, the updated children are
the loop's, and result/cursor are determined by how the scan stopped. -/
theorem tick_sel_bridge (p : List Nat) (n : Node Ctx) (ctx : Ctx)
    (ht : n.type_ = NodeType.kSelector) :
    ∃ ctx0 : Ctx,
      childTicks p (tick p n ctx).tr =
        childTicks p (selLoop p
          (if n.status_ = Status.kRunning then n.current_child_ else 0)
          0 n.children_ ctx0).tr ∧
      (tick p n ctx).node.children_ =
        (selLoop p
          (if n.status_ = Status.kRunning then n.current_child_ else 0)
          0 n.children_ ctx0).children ∧
      (match (selLoop p
          (if n.status_ = Status.kRunning then n.current_child_ else 0)
          0 n.children_ ctx0).stop with
       | ScanStop.completed =>
           (tick p n ctx).res = Status.kFailure ∧
           (tick p n ctx).node.current_child_ =
             (if n.status_ = Status.kRunning then n.current_child_ else 0)
       | ScanStop.nullAt _ =>
           (tick p n ctx).res = Status.kError ∧
           (tick p n ctx).node.current_child_ =
             (if n.status_ = Status.kRunning then n.current_child_ else 0)
       | ScanStop.runningAt i =>
           (tick p n ctx).res = Status.kRunning ∧
           (tick p n ctx).node.current_child_ = i
       | ScanStop.haltAt i s =>
           (tick p n ctx).res = s ∧
           (tick p n ctx).node.current_child_ = i) := by
  cases n with
  | mk t st cur pol db sb tk en ex ch nm =>
    simp only [Node.type_] at ht
    subst ht
    refine ⟨(if st = Status.kRunning then (ctx, ([] : List Event))
      else callEnter p en ctx).1, ?_⟩
    simp only [tick, Node.type_, tickSelector, Node.status_, Node.children_,
      Node.current_child_]
    cases hstop : (selLoop p (if st = Status.kRunning then cur else 0) 0 ch
        ((if st = Status.kRunning then (ctx, ([] : List Event))
          else callEnter p en ctx).1)).stop with
    | completed =>
      simp [hstop, childTicks_append, childTicks_enterIf, childTicks_callExit,
        childTicks_own, Node.children_, Node.current_child_]
    | nullAt j =>
      simp [hstop, childTicks_append, childTicks_enterIf, childTicks_callExit,
        childTicks_own, Node.children_, Node.current_child_]
    | runningAt j =>
      simp [hstop, childTicks_append, childTicks_enterIf, childTicks_callExit,
        childTicks_own, Node.children_, Node.current_child_]
    | haltAt j s =>
      simp [hstop, childTicks_append, childTicks_enterIf, childTicks_callExit,
        childTicks_own, Node.children_, Node.current_child_]

end BTSpec
namespace BTSpec
variable {Ctx : Type}

/-- C4: Sequence semantics: on fresh entry the scan starts at cursor 0,
children are ticked in ascending contiguous order from the effective
cursor, every child ticked before the deciding one returned Success, a
Running child saves the cursor at its index and yields Running with later
children unticked, a Failure/Error child is propagated unchanged with
later children unticked, all-Success scans (over non-null children)
yield Success, zero children yield Success, and children before the
cursor are neither re-ticked nor modified. -/
theorem claim_C4 (p : List Nat) (n : Node Ctx) (ctx : Ctx)
    (ht : n.type_ = NodeType.kSequence) :
    (n.children_ = [] → (tick p n ctx).res = Status.kSuccess) ∧
    ((childTicks p (tick p n ctx).tr).map Prod.fst =
      List.range'
        (if n.status_ = Status.kRunning then n.current_child_ else 0)
        (childTicks p (tick p n ctx).tr).length) ∧
    (∀ x ∈ (childTicks p (tick p n ctx).tr).dropLast,
      x.2 = Status.kSuccess) ∧
    (∀ i, (i, Status.kRunning) ∈ childTicks p (tick p n ctx).tr →
      (tick p n ctx).res = Status.kRunning ∧
      (tick p n ctx).node.current_child_ = i ∧
      ∀ j s', (j, s') ∈ childTicks p (tick p n ctx).tr → j ≤ i) ∧
    (∀ i s, (i, s) ∈ childTicks p (tick p n ctx).tr →
      s = Status.kFailure ∨ s = Status.kError →
      (tick p n ctx).res = s ∧ (tick p n ctx).node.current_child_ = i ∧
      ∀ j s', (j, s') ∈ childTicks p (tick p n ctx).tr → j ≤ i) ∧
    ((∀ j, (if n.status_ = Status.kRunning then n.current_child_ else 0) ≤ j →
        j < n.children_.length → n.children_.get? j ≠ some none) →
      (∀ x ∈ childTicks p (tick p n ctx).tr, x.2 = Status.kSuccess) →
      (tick p n ctx).res = Status.kSuccess) ∧
    (∀ j, j < (if n.status_ = Status.kRunning then n.current_child_ else 0) →
      (tick p n ctx).node.children_.get? j = n.children_.get? j ∧
      ∀ s, (j, s) ∉ childTicks p (tick p n ctx).tr) := by
  rcases tick_seq_bridge p n ctx ht with ⟨ctx0, htr, hch, hmatch⟩
  rcases seqLoop_spec p
    (if n.status_ = Status.kRunning then n.current_child_ else 0)
    n.children_ 0 ctx0 with ⟨s1, s2, s3⟩
  rw [Nat.max_zero, Nat.zero_add] at s3
  rw [htr, hch]
  cases hstop : (seqLoop p
      (if n.status_ = Status.kRunning then n.current_child_ else 0)
      0 n.children_ ctx0).stop with
  | completed =>
    rw [hstop] at hmatch s3
    simp only [seqStopSpec] at s3
    rcases s3 with ⟨sAll, sMap⟩
    have hlen : (childTicks p (seqLoop p
        (if n.status_ = Status.kRunning then n.current_child_ else 0)
        0 n.children_ ctx0).tr).length = n.children_.length -
        (if n.status_ = Status.kRunning then n.current_child_ else 0) := by
      have := congrArg List.length sMap
      simpa using this
    refine ⟨fun _ => hmatch.1, ?_, ?_, ?_, ?_, fun _ _ => hmatch.1, ?_⟩
    · rw [hlen]
      exact sMap
    · intro x hx
      exact sAll x (List.dropLast_subset _ hx)
    · intro i hmem
      have := sAll _ hmem
      simp at this
    · intro i s hmem hs
      have := sAll _ hmem
      simp at this
      subst this
      rcases hs with h | h <;> simp at h
    · intro j hj
      refine ⟨s2 j (by omega), ?_⟩
      intro s hmem
      have : j ∈ (childTicks p (seqLoop p
          (if n.status_ = Status.kRunning then n.current_child_ else 0)
          0 n.children_ ctx0).tr).map Prod.fst :=
        List.mem_map.mpr ⟨(j, s), hmem, rfl⟩
      rw [sMap] at this
      rw [List.mem_range'_1] at this
      omega
  | nullAt j0 =>
    rw [hstop] at hmatch s3
    simp only [seqStopSpec] at s3
    rcases s3 with ⟨sAll, sMap, sNull, sLo, sHi⟩
    have hlen : (childTicks p (seqLoop p
        (if n.status_ = Status.kRunning then n.current_child_ else 0)
        0 n.children_ ctx0).tr).length = j0 -
        (if n.status_ = Status.kRunning then n.current_child_ else 0) := by
      have := congrArg List.length sMap
      simpa using this
    refine ⟨?_, ?_, ?_, ?_, ?_, ?_, ?_⟩
    · intro h
      rw [h] at sHi
      simp at sHi
    · rw [hlen]
      exact sMap
    · intro x hx
      exact sAll x (List.dropLast_subset _ hx)
    · intro i hmem
      have := sAll _ hmem
      simp at this
    · intro i s hmem hs
      have := sAll _ hmem
      simp at this
      subst this
      rcases hs with h | h <;> simp at h
    · intro hnonull _
      exfalso
      refine hnonull j0 sLo sHi ?_
      simpa using sNull
    · intro j hj
      refine ⟨s2 j (by omega), ?_⟩
      intro s hmem
      have : j ∈ (childTicks p (seqLoop p
          (if n.status_ = Status.kRunning then n.current_child_ else 0)
          0 n.children_ ctx0).tr).map Prod.fst :=
        List.mem_map.mpr ⟨(j, s), hmem, rfl⟩
      rw [sMap] at this
      rw [List.mem_range'_1] at this
      omega
  | runningAt j0 =>
    rw [hstop] at hmatch s3
    simp only [seqStopSpec] at s3
    rcases s3 with ⟨base, hbe, hbAll, hbMap, sLo, sHi⟩
    have hblen : base.length = j0 -
        (if n.status_ = Status.kRunning then n.current_child_ else 0) := by
      have := congrArg List.length hbMap
      simpa using this
    have hlow : ∀ j s', (j, s') ∈ childTicks p (seqLoop p
        (if n.status_ = Status.kRunning then n.current_child_ else 0)
        0 n.children_ ctx0).tr →
        (if n.status_ = Status.kRunning then n.current_child_ else 0) ≤ j ∧
        j ≤ j0 := by
      intro j s' hmem
      rw [hbe] at hmem
      rcases List.mem_append.mp hmem with h | h
      · have : j ∈ base.map Prod.fst := List.mem_map.mpr ⟨(j, s'), h, rfl⟩
        rw [hbMap, List.mem_range'_1] at this
        omega
      · simp at h
        omega
    refine ⟨?_, ?_, ?_, ?_, ?_, ?_, ?_⟩
    · intro h
      rw [h] at sHi
      simp at sHi
    · rw [hbe]
      simp only [List.map_append, List.map_cons, List.map_nil,
        List.length_append, List.length_cons, List.length_nil, hbMap, hblen]
      have harg : j0 - (if n.status_ = Status.kRunning
          then n.current_child_ else 0) + 1 =
          (j0 - (if n.status_ = Status.kRunning
            then n.current_child_ else 0)) + 1 := rfl
      rw [List.range'_concat]
      have : (if n.status_ = Status.kRunning then n.current_child_ else 0) +
          1 * (j0 - (if n.status_ = Status.kRunning
            then n.current_child_ else 0)) = j0 := by omega
      rw [this]
    · rw [hbe, List.dropLast_concat]
      exact hbAll
    · intro i hmem
      have hmem' := hmem
      rw [hbe] at hmem'
      rcases List.mem_append.mp hmem' with h | h
      · have := hbAll _ h
        simp at this
      · simp at h
        subst h
        exact ⟨hmatch.1, hmatch.2, fun j s' hm => (hlow j s' hm).2⟩
    · intro i s hmem hs
      have hmem' := hmem
      rw [hbe] at hmem'
      rcases List.mem_append.mp hmem' with h | h
      · have := hbAll _ h
        simp at this
        subst this
        rcases hs with h' | h' <;> simp at h'
      · simp at h
        rcases h with ⟨h1, h2⟩
        subst h2
        rcases hs with h' | h' <;> simp at h'
    · intro _ hall
      exfalso
      have : (j0, Status.kRunning) ∈ childTicks p (seqLoop p
          (if n.status_ = Status.kRunning then n.current_child_ else 0)
          0 n.children_ ctx0).tr := by
        rw [hbe]
        simp
      have := hall _ this
      simp at this
    · intro j hj
      refine ⟨s2 j (by omega), ?_⟩
      intro s hmem
      have := (hlow j s hmem).1
      omega
  | haltAt j0 s0 =>
    rw [hstop] at hmatch s3
    simp only [seqStopSpec] at s3
    rcases s3 with ⟨base, hbe, hbAll, hbMap, hdisj, sLo, sHi⟩
    have hblen : base.length = j0 -
        (if n.status_ = Status.kRunning then n.current_child_ else 0) := by
      have := congrArg List.length hbMap
      simpa using this
    have hlow : ∀ j s', (j, s') ∈ childTicks p (seqLoop p
        (if n.status_ = Status.kRunning then n.current_child_ else 0)
        0 n.children_ ctx0).tr →
        (if n.status_ = Status.kRunning then n.current_child_ else 0) ≤ j ∧
        j ≤ j0 := by
      intro j s' hmem
      rw [hbe] at hmem
      rcases List.mem_append.mp hmem with h | h
      · have : j ∈ base.map Prod.fst := List.mem_map.mpr ⟨(j, s'), h, rfl⟩
        rw [hbMap, List.mem_range'_1] at this
        omega
      · simp at h
        omega
    refine ⟨?_, ?_, ?_, ?_, ?_, ?_, ?_⟩
    · intro h
      rw [h] at sHi
      simp at sHi
    · rw [hbe]
      simp only [List.map_append, List.map_cons, List.map_nil,
        List.length_append, List.length_cons, List.length_nil, hbMap, hblen]
      rw [List.range'_concat]
      have : (if n.status_ = Status.kRunning then n.current_child_ else 0) +
          1 * (j0 - (if n.status_ = Status.kRunning
            then n.current_child_ else 0)) = j0 := by omega
      rw [this]
    · rw [hbe, List.dropLast_concat]
      exact hbAll
    · intro i hmem
      have hmem' := hmem
      rw [hbe] at hmem'
      rcases List.mem_append.mp hmem' with h | h
      · have := hbAll _ h
        simp at this
      · simp at h
        rcases h with ⟨h1, h2⟩
        rcases hdisj with h' | h' <;> rw [h'] at h2 <;> simp at h2
    · intro i s hmem hs
      have hmem' := hmem
      rw [hbe] at hmem'
      rcases List.mem_append.mp hmem' with h | h
      · have := hbAll _ h
        simp at this
        subst this
        rcases hs with h' | h' <;> simp at h'
      · simp at h
        rcases h with ⟨h1, h2⟩
        subst h1
        subst h2
        exact ⟨hmatch.1, hmatch.2, fun j s' hm => (hlow j s' hm).2⟩
    · intro _ hall
      exfalso
      have : (j0, s0) ∈ childTicks p (seqLoop p
          (if n.status_ = Status.kRunning then n.current_child_ else 0)
          0 n.children_ ctx0).tr := by
        rw [hbe]
        simp
      have := hall _ this
      simp at this
      subst this
      rcases hdisj with h' | h' <;> simp at h'
    · intro j hj
      refine ⟨s2 j (by omega), ?_⟩
      intro s hmem
      have := (hlow j s hmem).1
      omega

/-- C5: Selector semantics: children are ticked in ascending contiguous
order from the effective cursor (reset to 0 on fresh entry), every child
ticked before the deciding one returned Failure, the first Success is
propagated immediately with later children skipped, a Failure child makes
the scan continue to the next (non-null) child, Running saves the cursor,
and an all-Failure scan (over non-null children) or zero children yield
Failure; children before the cursor are neither re-ticked nor modified. -/
theorem claim_C5 (p : List Nat) (n : Node Ctx) (ctx : Ctx)
    (ht : n.type_ = NodeType.kSelector) :
    (n.children_ = [] → (tick p n ctx).res = Status.kFailure) ∧
    ((childTicks p (tick p n ctx).tr).map Prod.fst =
      List.range'
        (if n.status_ = Status.kRunning then n.current_child_ else 0)
        (childTicks p (tick p n ctx).tr).length) ∧
    (∀ x ∈ (childTicks p (tick p n ctx).tr).dropLast,
      x.2 = Status.kFailure) ∧
    (∀ i, (i, Status.kRunning) ∈ childTicks p (tick p n ctx).tr →
      (tick p n ctx).res = Status.kRunning ∧
      (tick p n ctx).node.current_child_ = i ∧
      ∀ j s', (j, s') ∈ childTicks p (tick p n ctx).tr → j ≤ i) ∧
    (∀ i, (i, Status.kSuccess) ∈ childTicks p (tick p n ctx).tr →
      (tick p n ctx).res = Status.kSuccess ∧
      (tick p n ctx).node.current_child_ = i ∧
      ∀ j s', (j, s') ∈ childTicks p (tick p n ctx).tr → j ≤ i) ∧
    (∀ i, (i, Status.kFailure) ∈ childTicks p (tick p n ctx).tr →
      i + 1 < n.children_.length →
      n.children_.get? (i + 1) ≠ some none →
      ∃ s', (i + 1, s') ∈ childTicks p (tick p n ctx).tr) ∧
    ((∀ j, (if n.status_ = Status.kRunning then n.current_child_ else 0) ≤ j →
        j < n.children_.length → n.children_.get? j ≠ some none) →
      (∀ x ∈ childTicks p (tick p n ctx).tr, x.2 = Status.kFailure) →
      (tick p n ctx).res = Status.kFailure) ∧
    (∀ j, j < (if n.status_ = Status.kRunning then n.current_child_ else 0) →
      (tick p n ctx).node.children_.get? j = n.children_.get? j ∧
      ∀ s, (j, s) ∉ childTicks p (tick p n ctx).tr) := by
  rcases tick_sel_bridge p n ctx ht with ⟨ctx0, htr, hch, hmatch⟩
  rcases selLoop_spec p
    (if n.status_ = Status.kRunning then n.current_child_ else 0)
    n.children_ 0 ctx0 with ⟨s1, s2, s3⟩
  rw [Nat.max_zero, Nat.zero_add] at s3
  rw [htr, hch]
  have backmap : ∀ (j : Nat),
      j ∈ (childTicks p (selLoop p
        (if n.status_ = Status.kRunning then n.current_child_ else 0)
        0 n.children_ ctx0).tr).map Prod.fst →
      ∃ s', (j, s') ∈ childTicks p (selLoop p
        (if n.status_ = Status.kRunning then n.current_child_ else 0)
        0 n.children_ ctx0).tr := by
    intro j hj
    rcases List.mem_map.mp hj with ⟨⟨j', s'⟩, hmem', heq⟩
    simp at heq
    subst heq
    exact ⟨s', hmem'⟩
  cases hstop : (selLoop p
      (if n.status_ = Status.kRunning then n.current_child_ else 0)
      0 n.children_ ctx0).stop with
  | completed =>
    rw [hstop] at hmatch s3
    simp only [selStopSpec] at s3
    rcases s3 with ⟨sAll, sMap⟩
    have hlen : (childTicks p (selLoop p
        (if n.status_ = Status.kRunning then n.current_child_ else 0)
        0 n.children_ ctx0).tr).length = n.children_.length -
        (if n.status_ = Status.kRunning then n.current_child_ else 0) := by
      have := congrArg List.length sMap
      simpa using this
    refine ⟨fun _ => hmatch.1, ?_, ?_, ?_, ?_, ?_, fun _ _ => hmatch.1, ?_⟩
    · rw [hlen]
      exact sMap
    · intro x hx
      exact sAll x (List.dropLast_subset _ hx)
    · intro i hmem
      have := sAll _ hmem
      simp at this
    · intro i hmem
      have := sAll _ hmem
      simp at this
    · intro i hmem hlt _
      have hi : i ∈ (childTicks p (selLoop p
          (if n.status_ = Status.kRunning then n.current_child_ else 0)
          0 n.children_ ctx0).tr).map Prod.fst :=
        List.mem_map.mpr ⟨(i, Status.kFailure), hmem, rfl⟩
      rw [sMap, List.mem_range'_1] at hi
      apply backmap
      rw [sMap, List.mem_range'_1]
      omega
    · intro j hj
      refine ⟨s2 j (by omega), ?_⟩
      intro s hmem
      have : j ∈ (childTicks p (selLoop p
          (if n.status_ = Status.kRunning then n.current_child_ else 0)
          0 n.children_ ctx0).tr).map Prod.fst :=
        List.mem_map.mpr ⟨(j, s), hmem, rfl⟩
      rw [sMap] at this
      rw [List.mem_range'_1] at this
      omega
  | nullAt j0 =>
    rw [hstop] at hmatch s3
    simp only [selStopSpec] at s3
    rcases s3 with ⟨sAll, sMap, sNull, sLo, sHi⟩
    have hlen : (childTicks p (selLoop p
        (if n.status_ = Status.kRunning then n.current_child_ else 0)
        0 n.children_ ctx0).tr).length = j0 -
        (if n.status_ = Status.kRunning then n.current_child_ else 0) := by
      have := congrArg List.length sMap
      simpa using this
    refine ⟨?_, ?_, ?_, ?_, ?_, ?_, ?_, ?_⟩
    · intro h
      rw [h] at sHi
      simp at sHi
    · rw [hlen]
      exact sMap
    · intro x hx
      exact sAll x (List.dropLast_subset _ hx)
    · intro i hmem
      have := sAll _ hmem
      simp at this
    · intro i hmem
      have := sAll _ hmem
      simp at this
    · intro i hmem hlt hnn
      have hi : i ∈ (childTicks p (selLoop p
          (if n.status_ = Status.kRunning then n.current_child_ else 0)
          0 n.children_ ctx0).tr).map Prod.fst :=
        List.mem_map.mpr ⟨(i, Status.kFailure), hmem, rfl⟩
      rw [sMap, List.mem_range'_1] at hi
      by_cases hij : i + 1 = j0
      · exfalso
        apply hnn
        rw [hij]
        simpa using sNull
      · apply backmap
        rw [sMap, List.mem_range'_1]
        omega
    · intro hnonull _
      exfalso
      refine hnonull j0 sLo sHi ?_
      simpa using sNull
    · intro j hj
      refine ⟨s2 j (by omega), ?_⟩
      intro s hmem
      have : j ∈ (childTicks p (selLoop p
          (if n.status_ = Status.kRunning then n.current_child_ else 0)
          0 n.children_ ctx0).tr).map Prod.fst :=
        List.mem_map.mpr ⟨(j, s), hmem, rfl⟩
      rw [sMap] at this
      rw [List.mem_range'_1] at this
      omega
  | runningAt j0 =>
    rw [hstop] at hmatch s3
    simp only [selStopSpec] at s3
    rcases s3 with ⟨base, hbe, hbAll, hbMap, sLo, sHi⟩
    have hblen : base.length = j0 -
        (if n.status_ = Status.kRunning then n.current_child_ else 0) := by
      have := congrArg List.length hbMap
      simpa using this
    have hlow : ∀ j s', (j, s') ∈ childTicks p (selLoop p
        (if n.status_ = Status.kRunning then n.current_child_ else 0)
        0 n.children_ ctx0).tr →
        (if n.status_ = Status.kRunning then n.current_child_ else 0) ≤ j ∧
        j ≤ j0 := by
      intro j s' hmem
      rw [hbe] at hmem
      rcases List.mem_append.mp hmem with h | h
      · have : j ∈ base.map Prod.fst := List.mem_map.mpr ⟨(j, s'), h, rfl⟩
        rw [hbMap, List.mem_range'_1] at this
        omega
      · simp at h
        omega
    refine ⟨?_, ?_, ?_, ?_, ?_, ?_, ?_, ?_⟩
    · intro h
      rw [h] at sHi
      simp at sHi
    · rw [hbe]
      simp only [List.map_append, List.map_cons, List.map_nil,
        List.length_append, List.length_cons, List.length_nil, hbMap, hblen]
      rw [List.range'_concat]
      have : (if n.status_ = Status.kRunning then n.current_child_ else 0) +
          1 * (j0 - (if n.status_ = Status.kRunning
            then n.current_child_ else 0)) = j0 := by omega
      rw [this]
    · rw [hbe, List.dropLast_concat]
      exact hbAll
    · intro i hmem
      have hmem' := hmem
      rw [hbe] at hmem'
      rcases List.mem_append.mp hmem' with h | h
      · have := hbAll _ h
        simp at this
      · simp at h
        subst h
        exact ⟨hmatch.1, hmatch.2, fun j s' hm => (hlow j s' hm).2⟩
    · intro i hmem
      have hmem' := hmem
      rw [hbe] at hmem'
      rcases List.mem_append.mp hmem' with h | h
      · have := hbAll _ h
        simp at this
      · simp at h
    · intro i hmem _ _
      have backmapBase : ∀ (j : Nat), j ∈ base.map Prod.fst →
          ∃ s', (j, s') ∈ childTicks p (selLoop p
            (if n.status_ = Status.kRunning then n.current_child_ else 0)
            0 n.children_ ctx0).tr := by
        intro j hj
        rcases List.mem_map.mp hj with ⟨⟨j', s'⟩, hmem', heq⟩
        simp at heq
        subst heq
        refine ⟨s', ?_⟩
        rw [hbe]
        exact List.mem_append_left _ hmem'
      have hmem' := hmem
      rw [hbe] at hmem'
      rcases List.mem_append.mp hmem' with h | h
      · have hb : i ∈ base.map Prod.fst :=
          List.mem_map.mpr ⟨(i, Status.kFailure), h, rfl⟩
        rw [hbMap, List.mem_range'_1] at hb
        by_cases hij : i + 1 = j0
        · refine ⟨Status.kRunning, ?_⟩
          rw [hbe, hij]
          simp
        · apply backmapBase
          rw [hbMap, List.mem_range'_1]
          omega
      · simp at h
    · intro _ hall
      exfalso
      have : (j0, Status.kRunning) ∈ childTicks p (selLoop p
          (if n.status_ = Status.kRunning then n.current_child_ else 0)
          0 n.children_ ctx0).tr := by
        rw [hbe]
        simp
      have := hall _ this
      simp at this
    · intro j hj
      refine ⟨s2 j (by omega), ?_⟩
      intro s hmem
      have := (hlow j s hmem).1
      omega
  | haltAt j0 s0 =>
    rw [hstop] at hmatch s3
    simp only [selStopSpec] at s3
    rcases s3 with ⟨base, hbe, hbAll, hbMap, hdisj, sLo, sHi⟩
    have hblen : base.length = j0 -
        (if n.status_ = Status.kRunning then n.current_child_ else 0) := by
      have := congrArg List.length hbMap
      simpa using this
    have hlow : ∀ j s', (j, s') ∈ childTicks p (selLoop p
        (if n.status_ = Status.kRunning then n.current_child_ else 0)
        0 n.children_ ctx0).tr →
        (if n.status_ = Status.kRunning then n.current_child_ else 0) ≤ j ∧
        j ≤ j0 := by
      intro j s' hmem
      rw [hbe] at hmem
      rcases List.mem_append.mp hmem with h | h
      · have : j ∈ base.map Prod.fst := List.mem_map.mpr ⟨(j, s'), h, rfl⟩
        rw [hbMap, List.mem_range'_1] at this
        omega
      · simp at h
        omega
    have backmapBase : ∀ (j : Nat), j ∈ base.map Prod.fst →
        ∃ s', (j, s') ∈ childTicks p (selLoop p
          (if n.status_ = Status.kRunning then n.current_child_ else 0)
          0 n.children_ ctx0).tr := by
      intro j hj
      rcases List.mem_map.mp hj with ⟨⟨j', s'⟩, hmem', heq⟩
      simp at heq
      subst heq
      refine ⟨s', ?_⟩
      rw [hbe]
      exact List.mem_append_left _ hmem'
    refine ⟨?_, ?_, ?_, ?_, ?_, ?_, ?_, ?_⟩
    · intro h
      rw [h] at sHi
      simp at sHi
    · rw [hbe]
      simp only [List.map_append, List.map_cons, List.map_nil,
        List.length_append, List.length_cons, List.length_nil, hbMap, hblen]
      rw [List.range'_concat]
      have : (if n.status_ = Status.kRunning then n.current_child_ else 0) +
          1 * (j0 - (if n.status_ = Status.kRunning
            then n.current_child_ else 0)) = j0 := by omega
      rw [this]
    · rw [hbe, List.dropLast_concat]
      exact hbAll
    · intro i hmem
      have hmem' := hmem
      rw [hbe] at hmem'
      rcases List.mem_append.mp hmem' with h | h
      · have := hbAll _ h
        simp at this
      · simp at h
        rcases h with ⟨h1, h2⟩
        rcases hdisj with h' | h' <;> rw [h'] at h2 <;> simp at h2
    · intro i hmem
      have hmem' := hmem
      rw [hbe] at hmem'
      rcases List.mem_append.mp hmem' with h | h
      · have := hbAll _ h
        simp at this
      · simp at h
        rcases h with ⟨h1, h2⟩
        subst h1
        rcases hdisj with h' | h'
        · rw [h'] at hmatch
          exact ⟨hmatch.1, hmatch.2, fun j s' hm => (hlow j s' hm).2⟩
        · rw [h'] at h2
          simp at h2
    · intro i hmem _ _
      have hmem' := hmem
      rw [hbe] at hmem'
      rcases List.mem_append.mp hmem' with h | h
      · have hb : i ∈ base.map Prod.fst :=
          List.mem_map.mpr ⟨(i, Status.kFailure), h, rfl⟩
        rw [hbMap, List.mem_range'_1] at hb
        by_cases hij : i + 1 = j0
        · refine ⟨s0, ?_⟩
          rw [hbe, hij]
          simp
        · apply backmapBase
          rw [hbMap, List.mem_range'_1]
          omega
      · simp at h
        rcases h with ⟨h1, h2⟩
        rcases hdisj with h' | h' <;> rw [h'] at h2 <;> simp at h2
    · intro _ hall
      exfalso
      have : (j0, s0) ∈ childTicks p (selLoop p
          (if n.status_ = Status.kRunning then n.current_child_ else 0)
          0 n.children_ ctx0).tr := by
        rw [hbe]
        simp
      have := hall _ this
      simp at this
      subst this
      rcases hdisj with h' | h' <;> simp at h'
    · intro j hj
      refine ⟨s2 j (by omega), ?_⟩
      intro s hmem
      have := (hlow j s hmem).1
      omega

/-- A concrete childless Sequence node over `Ctx = Nat`. -/
def wSeqE : Node Nat :=
  Node.mk NodeType.kSequence Status.kFailure 0 ParallelPolicy.kRequireAll 0 0
    none none none [] ""

/-- A concrete childless Selector node over `Ctx = Nat`. -/
def wSelE : Node Nat :=
  Node.mk NodeType.kSelector Status.kFailure 0 ParallelPolicy.kRequireAll 0 0
    none none none [] ""

/-- Witness for C4 at a concrete sequence node. -/
theorem claim_C4_witness : (tick [] wSeqE (0 : Nat)).res = Status.kSuccess :=
  (claim_C4 [] wSeqE 0 rfl).1 rfl

/-- Witness for C5 at a concrete selector node. -/
theorem claim_C5_witness : (tick [] wSelE (0 : Nat)).res = Status.kFailure :=
  (claim_C5 [] wSelE 0 rfl).1 rfl


end BTSpec
namespace BTSpec
variable {Ctx : Type}

theorem testBit_set (a i j : Nat) :
    (a ||| (1 <<< i)).testBit j = (a.testBit j || decide (i = j)) := by
  rw [Nat.testBit_or, Nat.one_shiftLeft, Nat.testBit_two_pow]

/-- Everything the parallel loop guarantees about its result `r`, for a
pass over `l` starting at index `i` with incoming bitmasks `db`/`sb`:
children-list shape, already-done children untouched, bits outside the
window and at already-done indices preserved, success implies done, the
three counters are windowed popcounts of the final bitmasks, the recorded
child ticks are consistent with the final bitmasks, and a null child with
its done bit clear gets marked done-without-success. -/
def ParSpec (p : List Nat) (l : List (Option (Node Ctx))) (i db sb : Nat)
    (r : ParRes Ctx) : Prop :=
  r.children.length = l.length ∧
  (∀ k, db.testBit (i + k) = true → r.children.get? k = l.get? k) ∧
  (∀ j, j < i ∨ i + l.length ≤ j →
    r.doneBits.testBit j = db.testBit j ∧
    r.succBits.testBit j = sb.testBit j) ∧
  (∀ j, db.testBit j = true →
    r.doneBits.testBit j = true ∧ r.succBits.testBit j = sb.testBit j) ∧
  (∀ j, r.succBits.testBit j = true → r.doneBits.testBit j = true) ∧
  (r.successCnt = countIn (fun j => r.succBits.testBit j) i l.length ∧
   r.failureCnt = countIn
     (fun j => r.doneBits.testBit j && !r.succBits.testBit j) i l.length ∧
   r.runningCnt = countIn (fun j => !r.doneBits.testBit j) i l.length) ∧
  (∀ j s, (j, s) ∈ childTicks p r.tr →
    i ≤ j ∧ j < i + l.length ∧ db.testBit j = false ∧
    (s = Status.kSuccess →
      r.doneBits.testBit j = true ∧ r.succBits.testBit j = true) ∧
    (s = Status.kRunning → r.doneBits.testBit j = false) ∧
    ((s = Status.kFailure ∨ s = Status.kError) →
      r.doneBits.testBit j = true ∧ r.succBits.testBit j = false)) ∧
  (∀ k, l.get? k = some none → db.testBit (i + k) = false →
    r.doneBits.testBit (i + k) = true ∧ r.succBits.testBit (i + k) = false)

/-- ParSpec transport for an already-done (skipped) child. -/
theorem parSpec_skip (p : List Nat) (rest : List (Option (Node Ctx)))
    (c : Option (Node Ctx)) (i db sb : Nat) (r : ParRes Ctx)
    (hdb : db.testBit i = true)
    (h : ParSpec p rest (i + 1) db sb r) :
    ParSpec p (c :: rest) i db sb
      (if sb.testBit i then
        { r with successCnt := r.successCnt + 1, children := c :: r.children }
      else
        { r with failureCnt := r.failureCnt + 1,
                 children := c :: r.children }) := by
  rcases h with ⟨i1, i2, i3, i4, i5, ⟨c1, c2, c3⟩, i7, i8⟩
  have hdi : r.doneBits.testBit i = true := (i4 i hdb).1
  have hsi : r.succBits.testBit i = sb.testBit i := (i4 i hdb).2
  have body : ∀ r' : ParRes Ctx,
      r'.doneBits = r.doneBits → r'.succBits = r.succBits →
      r'.children = c :: r.children → r'.tr = r.tr →
      r'.successCnt = r.successCnt + (if sb.testBit i then 1 else 0) →
      r'.failureCnt = r.failureCnt + (if sb.testBit i then 0 else 1) →
      r'.runningCnt = r.runningCnt →
      ParSpec p (c :: rest) i db sb r' := by
    intro r' hd hs hc htr' hsc hfc hrc
    refine ⟨?_, ?_, ?_, ?_, ?_, ⟨?_, ?_, ?_⟩, ?_, ?_⟩
    · simp [hc, i1]
    · intro k hk
      cases k with
      | zero => simp [hc]
      | succ k' =>
        have harith : i + (k' + 1) = (i + 1) + k' := by omega
        rw [harith] at hk
        simp only [hc, List.get?_cons_succ]
        exact i2 k' hk
    · intro j hj
      rw [hd, hs]
      refine i3 j ?_
      rcases hj with hj | hj
      · exact Or.inl (by omega)
      · right
        simp only [List.length_cons] at hj
        omega
    · intro j hj
      rw [hd, hs]
      exact i4 j hj
    · intro j hj
      rw [hd] at *
      rw [hs] at hj
      exact i5 j hj
    · simp only [hsc, hs, hd, List.length_cons, countIn, hsi]
      rw [c1]
      cases hsb : sb.testBit i <;> (try simp) <;> omega
    · simp only [hfc, hs, hd, List.length_cons, countIn, hdi, hsi]
      rw [c2]
      cases hsb : sb.testBit i <;> (try simp) <;> omega
    · simp only [hrc, hd, List.length_cons, countIn, hdi]
      rw [c3]
      (try simp) <;> omega
    · intro j s hmem
      rw [htr'] at hmem
      rcases i7 j s hmem with ⟨a1, a2, a3, a4, a5, a6⟩
      rw [hd, hs]
      exact ⟨by omega, by simp only [List.length_cons]; omega, a3, a4, a5, a6⟩
    · intro k hk hdbk
      rw [hd, hs]
      cases k with
      | zero =>
        simp only [Nat.add_zero] at hdbk
        rw [hdbk] at hdb
        cases hdb
      | succ k' =>
        have harith : i + (k' + 1) = (i + 1) + k' := by omega
        rw [harith] at hdbk ⊢
        simp only [List.get?_cons_succ] at hk
        exact i8 k' hk hdbk
  by_cases hsb : sb.testBit i
  · simp only [hsb, if_true]
    exact body _ rfl rfl rfl rfl (by simp [hsb]) (by simp [hsb]) rfl
  · simp only [hsb, if_false]
    exact body _ rfl rfl rfl rfl (by simp [hsb]) (by simp [hsb]) rfl

/-- ParSpec transport for a child marked failed this cycle (a null child,
or a ticked child that returned Failure or Error). -/
theorem parSpec_mark_failed (p : List Nat) (rest : List (Option (Node Ctx)))
    (c c' : Option (Node Ctx)) (i db sb : Nat) (r : ParRes Ctx)
    (ctr : List Event) (s : Status)
    (hdb : db.testBit i = false)
    (hinv : ∀ j, sb.testBit j = true → db.testBit j = true)
    (hctr : childTicks p ctr = [] ∨
      (childTicks p ctr = [(i, s)] ∧
        (s = Status.kFailure ∨ s = Status.kError)))
    (h : ParSpec p rest (i + 1) (db ||| (1 <<< i)) sb r) :
    ParSpec p (c :: rest) i db sb
      { r with failureCnt := r.failureCnt + 1, children := c' :: r.children,
               tr := ctr ++ r.tr } := by
  rcases h with ⟨i1, i2, i3, i4, i5, ⟨c1, c2, c3⟩, i7, i8⟩
  have hsbi : sb.testBit i = false := by
    cases hsb : sb.testBit i
    · rfl
    · have := hinv i hsb
      rw [this] at hdb
      cases hdb
  have hdbi' : (db ||| (1 <<< i)).testBit i = true := by
    simp only [testBit_set]
    simp
  have hdbne : ∀ j, j ≠ i → (db ||| (1 <<< i)).testBit j = db.testBit j := by
    intro j hj
    have hij : i ≠ j := fun h => hj h.symm
    simp only [testBit_set]
    simp [hij]
  have hmono : ∀ j, db.testBit j = true →
      (db ||| (1 <<< i)).testBit j = true := by
    intro j hj
    simp only [testBit_set]
    simp [hj]
  have hdi : r.doneBits.testBit i = true := (i4 i hdbi').1
  have hsi : r.succBits.testBit i = false := by
    rw [(i4 i hdbi').2]
    exact hsbi
  refine ⟨?_, ?_, ?_, ?_, ?_, ⟨?_, ?_, ?_⟩, ?_, ?_⟩
  · simp [i1]
  · intro k hk
    cases k with
    | zero =>
      simp only [Nat.add_zero] at hk
      rw [hk] at hdb
      cases hdb
    | succ k' =>
      have harith : i + (k' + 1) = (i + 1) + k' := by omega
      rw [harith] at hk
      simp only [List.get?_cons_succ]
      exact i2 k' (hmono _ hk)
  · intro j hj
    have hji : j ≠ i := by
      rcases hj with hj | hj
      · omega
      · simp only [List.length_cons] at hj
        omega
    have := i3 j (by
      rcases hj with hj | hj
      · exact Or.inl (by omega)
      · right
        simp only [List.length_cons] at hj
        omega)
    rw [hdbne j hji] at this
    exact this
  · intro j hj
    have hji : j ≠ i := by
      intro he
      rw [he] at hj
      rw [hj] at hdb
      cases hdb
    have := i4 j (hmono j hj)
    exact this
  · exact i5
  · simp only [List.length_cons, countIn, hsi]
    rw [c1]
    simp
  · simp only [List.length_cons, countIn, hdi, hsi]
    rw [c2]
    simp
    omega
  · simp only [List.length_cons, countIn, hdi]
    rw [c3]
    simp
  · intro j s' hmem
    rw [childTicks_append] at hmem
    rcases List.mem_append.mp hmem with hm | hm
    · rcases hctr with hc0 | ⟨hc1, hcs⟩
      · rw [hc0] at hm
        cases hm
      · rw [hc1] at hm
        simp at hm
        rcases hm with ⟨hm1, hm2⟩
        subst hm2
        refine ⟨by omega, by simp only [List.length_cons]; omega, ?_,
          ?_, ?_, ?_⟩
        · rw [hm1]
          exact hdb
        · intro he
          rcases hcs with h' | h' <;> rw [he] at h' <;> simp at h'
        · intro he
          rcases hcs with h' | h' <;> rw [he] at h' <;> simp at h'
        · intro _
          rw [hm1]
          exact ⟨hdi, hsi⟩
    · rcases i7 j s' hm with ⟨a1, a2, a3, a4, a5, a6⟩
      have hji : j ≠ i := by omega
      rw [hdbne j hji] at a3
      exact ⟨by omega, by simp only [List.length_cons]; omega, a3, a4, a5, a6⟩
  · intro k hk hdbk
    cases k with
    | zero =>
      simp only [Nat.add_zero]
      exact ⟨hdi, hsi⟩
    | succ k' =>
      have harith : i + (k' + 1) = (i + 1) + k' := by omega
      rw [harith] at hdbk ⊢
      simp only [List.get?_cons_succ] at hk
      refine i8 k' hk ?_
      rw [hdbne _ (by omega)]
      exact hdbk

/-- ParSpec transport for a ticked child that returned Running. -/
theorem parSpec_running (p : List Nat) (rest : List (Option (Node Ctx)))
    (nd : Node Ctx) (c' : Option (Node Ctx))
    (i db sb : Nat) (r : ParRes Ctx) (ctr : List Event)
    (hdb : db.testBit i = false)
    (hinv : ∀ j, sb.testBit j = true → db.testBit j = true)
    (hctr : childTicks p ctr = [(i, Status.kRunning)])
    (h : ParSpec p rest (i + 1) db sb r) :
    ParSpec p (some nd :: rest) i db sb
      { r with runningCnt := r.runningCnt + 1,
               children := c' :: r.children, tr := ctr ++ r.tr } := by
  rcases h with ⟨i1, i2, i3, i4, i5, ⟨c1, c2, c3⟩, i7, i8⟩
  have hsbi : sb.testBit i = false := by
    cases hsb : sb.testBit i
    · rfl
    · have := hinv i hsb
      rw [this] at hdb
      cases hdb
  have hdi : r.doneBits.testBit i = false := by
    rw [(i3 i (Or.inl (by omega))).1]
    exact hdb
  have hsi : r.succBits.testBit i = false := by
    rw [(i3 i (Or.inl (by omega))).2]
    exact hsbi
  refine ⟨?_, ?_, ?_, ?_, ?_, ⟨?_, ?_, ?_⟩, ?_, ?_⟩
  · simp [i1]
  · intro k hk
    cases k with
    | zero =>
      simp only [Nat.add_zero] at hk
      rw [hk] at hdb
      cases hdb
    | succ k' =>
      have harith : i + (k' + 1) = (i + 1) + k' := by omega
      rw [harith] at hk
      simp only [List.get?_cons_succ]
      exact i2 k' hk
  · intro j hj
    refine i3 j ?_
    rcases hj with hj | hj
    · exact Or.inl (by omega)
    · right
      simp only [List.length_cons] at hj
      omega
  · exact i4
  · exact i5
  · simp only [List.length_cons, countIn, hsi]
    rw [c1]
    simp
  · simp only [List.length_cons, countIn, hdi]
    rw [c2]
    simp
  · simp only [List.length_cons, countIn, hdi]
    rw [c3]
    simp
    omega
  · intro j s' hmem
    rw [childTicks_append] at hmem
    rcases List.mem_append.mp hmem with hm | hm
    · rw [hctr] at hm
      simp at hm
      rcases hm with ⟨hm1, hm2⟩
      subst hm2
      refine ⟨by omega, by simp only [List.length_cons]; omega, ?_,
        ?_, ?_, ?_⟩
      · rw [hm1]
        exact hdb
      · intro he
        simp at he
      · intro _
        rw [hm1]
        exact hdi
      · intro he
        rcases he with h' | h' <;> simp at h'
    · rcases i7 j s' hm with ⟨a1, a2, a3, a4, a5, a6⟩
      exact ⟨by omega, by simp only [List.length_cons]; omega, a3, a4, a5, a6⟩
  · intro k hk hdbk
    cases k with
    | zero =>
      simp at hk
    | succ k' =>
      have harith : i + (k' + 1) = (i + 1) + k' := by omega
      rw [harith] at hdbk ⊢
      simp only [List.get?_cons_succ] at hk
      exact i8 k' hk hdbk

/-- ParSpec transport for a ticked child that returned Success. -/
theorem parSpec_success (p : List Nat) (rest : List (Option (Node Ctx)))
    (nd : Node Ctx) (c' : Option (Node Ctx))
    (i db sb : Nat) (r : ParRes Ctx) (ctr : List Event)
    (hdb : db.testBit i = false)
    (hctr : childTicks p ctr = [(i, Status.kSuccess)])
    (h : ParSpec p rest (i + 1) (db ||| (1 <<< i)) (sb ||| (1 <<< i)) r) :
    ParSpec p (some nd :: rest) i db sb
      { r with successCnt := r.successCnt + 1,
               children := c' :: r.children, tr := ctr ++ r.tr } := by
  rcases h with ⟨i1, i2, i3, i4, i5, ⟨c1, c2, c3⟩, i7, i8⟩
  have hdbi' : (db ||| (1 <<< i)).testBit i = true := by
    simp only [testBit_set]
    simp
  have hsbi' : (sb ||| (1 <<< i)).testBit i = true := by
    simp only [testBit_set]
    simp
  have hdbne : ∀ (a j : Nat), j ≠ i →
      (a ||| (1 <<< i)).testBit j = a.testBit j := by
    intro a j hj
    have hij : i ≠ j := fun h => hj h.symm
    simp only [testBit_set]
    simp [hij]
  have hmono : ∀ (a j : Nat), a.testBit j = true →
      (a ||| (1 <<< i)).testBit j = true := by
    intro a j hj
    simp only [testBit_set]
    simp [hj]
  have hdi : r.doneBits.testBit i = true := (i4 i hdbi').1
  have hsi : r.succBits.testBit i = true := by
    rw [(i4 i hdbi').2]
    exact hsbi'
  refine ⟨?_, ?_, ?_, ?_, ?_, ⟨?_, ?_, ?_⟩, ?_, ?_⟩
  · simp [i1]
  · intro k hk
    cases k with
    | zero =>
      simp only [Nat.add_zero] at hk
      rw [hk] at hdb
      cases hdb
    | succ k' =>
      have harith : i + (k' + 1) = (i + 1) + k' := by omega
      rw [harith] at hk
      simp only [List.get?_cons_succ]
      exact i2 k' (hmono _ _ hk)
  · intro j hj
    have hji : j ≠ i := by
      rcases hj with hj | hj
      · omega
      · simp only [List.length_cons] at hj
        omega
    have := i3 j (by
      rcases hj with hj | hj
      · exact Or.inl (by omega)
      · right
        simp only [List.length_cons] at hj
        omega)
    rw [hdbne db j hji, hdbne sb j hji] at this
    exact this
  · intro j hj
    have hji : j ≠ i := by
      intro he
      rw [he] at hj
      rw [hj] at hdb
      cases hdb
    have := i4 j (hmono _ _ hj)
    rw [hdbne sb j hji] at this
    exact this
  · exact i5
  · simp only [List.length_cons, countIn, hsi]
    rw [c1]
    simp
    omega
  · simp only [List.length_cons, countIn, hdi, hsi]
    rw [c2]
    simp
  · simp only [List.length_cons, countIn, hdi]
    rw [c3]
    simp
  · intro j s' hmem
    rw [childTicks_append] at hmem
    rcases List.mem_append.mp hmem with hm | hm
    · rw [hctr] at hm
      simp at hm
      rcases hm with ⟨hm1, hm2⟩
      subst hm2
      refine ⟨by omega, by simp only [List.length_cons]; omega, ?_,
        ?_, ?_, ?_⟩
      · rw [hm1]
        exact hdb
      · intro _
        rw [hm1]
        exact ⟨hdi, hsi⟩
      · intro he
        simp at he
      · intro he
        rcases he with h' | h' <;> simp at h'
    · rcases i7 j s' hm with ⟨a1, a2, a3, a4, a5, a6⟩
      have ha3 : db.testBit j = false := testBit_false_of_or a3
      exact ⟨by omega, by simp only [List.length_cons]; omega, ha3, a4, a5, a6⟩
  · intro k hk hdbk
    cases k with
    | zero =>
      simp at hk
    | succ k' =>
      have harith : i + (k' + 1) = (i + 1) + k' := by omega
      rw [harith] at hdbk ⊢
      simp only [List.get?_cons_succ] at hk
      refine i8 k' hk ?_
      rw [hdbne db _ (by omega)]
      exact hdbk

theorem parLoop_spec (p : List Nat) (l : List (Option (Node Ctx)))
    (i : Nat) (db sb : Nat) (ctx : Ctx)
    (hinv : ∀ j, sb.testBit j = true → db.testBit j = true) :
    ParSpec p l i db sb (parLoop p i db sb l ctx) := by
  induction l generalizing i db sb ctx with
  | nil =>
    simp only [parLoop, ParSpec]
    refine ⟨by simp, fun k _ => by simp, fun j _ => by simp, ?_, hinv, ?_,
      ?_, ?_⟩
    · intro j hj
      simp [hj]
    · simp [countIn]
    · intro j s hmem
      simp [childTicks] at hmem
    · intro k hk
      simp at hk
  | cons c rest ih =>
    have hinvOr : ∀ j, sb.testBit j = true →
        (db ||| (1 <<< i)).testBit j = true := by
      intro j hj
      simp only [Nat.testBit_or]
      simp [hinv j hj]
    have hinvOr2 : ∀ j, (sb ||| (1 <<< i)).testBit j = true →
        (db ||| (1 <<< i)).testBit j = true := by
      intro j hj
      simp only [Nat.testBit_or] at hj ⊢
      rcases (Bool.or_eq_true _ _).mp hj with h' | h'
      · simp [hinv j h']
      · simp [h']
    by_cases hdb : db.testBit i
    · have hsk := parSpec_skip p rest c i db sb
        (parLoop p (i + 1) db sb rest ctx) hdb (ih (i + 1) db sb ctx hinv)
      cases c <;> cases hsb : sb.testBit i <;>
        · simp only [parLoop, hdb, if_true, hsb]
          simp only [hsb, Bool.false_eq_true, if_true, if_false] at hsk
          exact hsk
    · rw [Bool.not_eq_true] at hdb
      cases c with
      | none =>
        simp only [parLoop, hdb, Bool.false_eq_true, if_false]
        have h := parSpec_mark_failed p rest none none i db sb _ []
          Status.kFailure hdb hinv (Or.inl (by simp [childTicks]))
          (ih (i + 1) (db ||| (1 <<< i)) sb ctx hinvOr)
        simpa only [List.nil_append] using h
      | some child =>
        cases hres : (tick (p ++ [i]) child ctx).res with
        | kRunning =>
          simp only [parLoop, hdb, Bool.false_eq_true, if_false, hres]
          refine parSpec_running p rest child _ i db sb _ _ hdb hinv ?_
            (ih (i + 1) db sb _ hinv)
          rw [childTicks_child, hres]
        | kSuccess =>
          simp only [parLoop, hdb, Bool.false_eq_true, if_false, hres]
          refine parSpec_success p rest child _ i db sb _ _ hdb ?_
            (ih (i + 1) (db ||| (1 <<< i)) (sb ||| (1 <<< i)) _ hinvOr2)
          rw [childTicks_child, hres]
        | kFailure =>
          simp only [parLoop, hdb, Bool.false_eq_true, if_false, hres]
          refine parSpec_mark_failed p rest (some child) _ i db sb _ _
            Status.kFailure hdb hinv (Or.inr ⟨?_, Or.inl rfl⟩)
            (ih (i + 1) (db ||| (1 <<< i)) sb _ hinvOr)
          rw [childTicks_child, hres]
        | kError =>
          simp only [parLoop, hdb, Bool.false_eq_true, if_false, hres]
          refine parSpec_mark_failed p rest (some child) _ i db sb _ _
            Status.kError hdb hinv (Or.inr ⟨?_, Or.inr rfl⟩)
            (ih (i + 1) (db ||| (1 <<< i)) sb _ hinvOr)
          rw [childTicks_child, hres]

/-- Bridge between `Node::Tick` on a Parallel node and the parallel loop:
the recorded child ticks, updated children and bitmasks are those of the
loop, and the result is the policy evaluation of the loop counters. -/
theorem tick_par_bridge (p : List Nat) (n : Node Ctx) (ctx : Ctx)
    (ht : n.type_ = NodeType.kParallel) :
    ∃ ctx0 : Ctx,
      childTicks p (tick p n ctx).tr =
        childTicks p (parLoop p 0
          (if n.status_ = Status.kRunning then n.child_done_bits_ else 0)
          (if n.status_ = Status.kRunning then n.child_success_bits_ else 0)
          n.children_ ctx0).tr ∧
      (tick p n ctx).node.children_ =
        (parLoop p 0
          (if n.status_ = Status.kRunning then n.child_done_bits_ else 0)
          (if n.status_ = Status.kRunning then n.child_success_bits_ else 0)
          n.children_ ctx0).children ∧
      (tick p n ctx).node.child_done_bits_ =
        (parLoop p 0
          (if n.status_ = Status.kRunning then n.child_done_bits_ else 0)
          (if n.status_ = Status.kRunning then n.child_success_bits_ else 0)
          n.children_ ctx0).doneBits ∧
      (tick p n ctx).node.child_success_bits_ =
        (parLoop p 0
          (if n.status_ = Status.kRunning then n.child_done_bits_ else 0)
          (if n.status_ = Status.kRunning then n.child_success_bits_ else 0)
          n.children_ ctx0).succBits ∧
      (n.success_policy_ = ParallelPolicy.kRequireOne →
        (tick p n ctx).res =
          (if 0 < (parLoop p 0
              (if n.status_ = Status.kRunning then n.child_done_bits_ else 0)
              (if n.status_ = Status.kRunning then n.child_success_bits_
                else 0) n.children_ ctx0).successCnt then Status.kSuccess
           else if 0 < (parLoop p 0
              (if n.status_ = Status.kRunning then n.child_done_bits_ else 0)
              (if n.status_ = Status.kRunning then n.child_success_bits_
                else 0) n.children_ ctx0).runningCnt then Status.kRunning
           else Status.kFailure)) ∧
      (n.success_policy_ = ParallelPolicy.kRequireAll →
        (tick p n ctx).res =
          (if 0 < (parLoop p 0
              (if n.status_ = Status.kRunning then n.child_done_bits_ else 0)
              (if n.status_ = Status.kRunning then n.child_success_bits_
                else 0) n.children_ ctx0).failureCnt then Status.kFailure
           else if 0 < (parLoop p 0
              (if n.status_ = Status.kRunning then n.child_done_bits_ else 0)
              (if n.status_ = Status.kRunning then n.child_success_bits_
                else 0) n.children_ ctx0).runningCnt then Status.kRunning
           else Status.kSuccess)) := by
  cases n with
  | mk t st cur pol db sb tk en ex ch nm =>
    simp only [Node.type_] at ht
    subst ht
    refine ⟨(if st = Status.kRunning then (ctx, ([] : List Event))
      else callEnter p en ctx).1, ?_⟩
    simp only [Node.status_, Node.children_, Node.child_done_bits_,
      Node.child_success_bits_, Node.success_policy_]
    cases pol with
    | kRequireOne =>
      simp only [tick, Node.type_, tickParallel]
      split_ifs <;>
        simp [childTicks_append, childTicks_enterIf, childTicks_callEnter,
          childTicks_callExit, childTicks_own, Node.children_,
          Node.child_done_bits_, Node.child_success_bits_]
    | kRequireAll =>
      simp only [tick, Node.type_, tickParallel]
      split_ifs <;>
        simp [childTicks_append, childTicks_enterIf, childTicks_callEnter,
          childTicks_callExit, childTicks_own, Node.children_,
          Node.child_done_bits_, Node.child_success_bits_]

end BTSpec
namespace BTSpec
variable {Ctx : Type}

/-- C6: Parallel policy evaluation.  After a tick of a Parallel node
(whose bitmasks satisfy the success-implies-done invariant when
resuming), with child `k` called done / succeeded according to the
updated bitmasks: under RequireAll the tick fails iff some child is done
without success, runs iff none failed and some child is not done, and
succeeds iff every child is done with success; under RequireOne the tick
succeeds iff some child succeeded, runs iff none succeeded and some
child is not done, and fails iff every child is done and none
succeeded. -/
theorem claim_C6 (p : List Nat) (n : Node Ctx) (ctx : Ctx)
    (ht : n.type_ = NodeType.kParallel)
    (hbits : n.status_ = Status.kRunning →
      ∀ j, n.child_success_bits_.testBit j = true →
        n.child_done_bits_.testBit j = true) :
    (n.success_policy_ = ParallelPolicy.kRequireAll →
      (((tick p n ctx).res = Status.kFailure ↔
        ∃ k, k < n.children_.length ∧
          (tick p n ctx).node.child_done_bits_.testBit k = true ∧
          (tick p n ctx).node.child_success_bits_.testBit k = false) ∧
      ((tick p n ctx).res = Status.kRunning ↔
        (∀ k, k < n.children_.length →
          (tick p n ctx).node.child_done_bits_.testBit k = true →
          (tick p n ctx).node.child_success_bits_.testBit k = true) ∧
        ∃ k, k < n.children_.length ∧
          (tick p n ctx).node.child_done_bits_.testBit k = false) ∧
      ((tick p n ctx).res = Status.kSuccess ↔
        ∀ k, k < n.children_.length →
          (tick p n ctx).node.child_done_bits_.testBit k = true ∧
          (tick p n ctx).node.child_success_bits_.testBit k = true))) ∧
    (n.success_policy_ = ParallelPolicy.kRequireOne →
      (((tick p n ctx).res = Status.kSuccess ↔
        ∃ k, k < n.children_.length ∧
          (tick p n ctx).node.child_success_bits_.testBit k = true) ∧
      ((tick p n ctx).res = Status.kRunning ↔
        (∀ k, k < n.children_.length →
          (tick p n ctx).node.child_success_bits_.testBit k = false) ∧
        ∃ k, k < n.children_.length ∧
          (tick p n ctx).node.child_done_bits_.testBit k = false) ∧
      ((tick p n ctx).res = Status.kFailure ↔
        ∀ k, k < n.children_.length →
          (tick p n ctx).node.child_done_bits_.testBit k = true ∧
          (tick p n ctx).node.child_success_bits_.testBit k = false))) := by
  obtain ⟨ctx0, htr, hch, hdbits, hsbits, hone, hall⟩ := tick_par_bridge p n ctx ht
  have hinv0 : ∀ j,
      (if n.status_ = Status.kRunning then n.child_success_bits_
        else 0).testBit j = true →
      (if n.status_ = Status.kRunning then n.child_done_bits_
        else 0).testBit j = true := by
    intro j hj
    by_cases hr : n.status_ = Status.kRunning
    · simp only [hr, if_true] at hj ⊢
      exact hbits hr j hj
    · simp only [hr, if_false] at hj
      simp at hj
  obtain ⟨s1, s2, s3, s4, s5, ⟨c1, c2, c3⟩, s7, s8⟩ :=
    parLoop_spec p n.children_ 0
      (if n.status_ = Status.kRunning then n.child_done_bits_ else 0)
      (if n.status_ = Status.kRunning then n.child_success_bits_ else 0)
      ctx0 hinv0
  set r := parLoop p 0
      (if n.status_ = Status.kRunning then n.child_done_bits_ else 0)
      (if n.status_ = Status.kRunning then n.child_success_bits_ else 0)
      n.children_ ctx0 with hr
  have hfail : 0 < r.failureCnt ↔ ∃ k, k < n.children_.length ∧
      r.doneBits.testBit k = true ∧ r.succBits.testBit k = false := by
    rw [c2, countIn_pos_iff]
    constructor
    · rintro ⟨j, _, hj2, hjf⟩
      simp only [Bool.and_eq_true, Bool.not_eq_true'] at hjf
      exact ⟨j, by omega, hjf.1, hjf.2⟩
    · rintro ⟨k, hk, hd, hs⟩
      exact ⟨k, by omega, by omega, by simp [hd, hs]⟩
  have hfail0 : r.failureCnt = 0 ↔ ∀ k, k < n.children_.length →
      r.doneBits.testBit k = true → r.succBits.testBit k = true := by
    rw [c2, countIn_eq_zero_iff]
    constructor
    · intro h k hk hd
      have := h k (by omega) (by omega)
      simp [hd] at this
      exact this
    · intro h j hj1 hj2
      by_cases hd : r.doneBits.testBit j = true
      · simp [hd, h j (by omega) hd]
      · rw [Bool.not_eq_true] at hd
        simp [hd]
  have hrun : 0 < r.runningCnt ↔ ∃ k, k < n.children_.length ∧
      r.doneBits.testBit k = false := by
    rw [c3, countIn_pos_iff]
    constructor
    · rintro ⟨j, _, hj2, hjf⟩
      simp only [Bool.not_eq_true'] at hjf
      exact ⟨j, by omega, hjf⟩
    · rintro ⟨k, hk, hd⟩
      exact ⟨k, by omega, by omega, by simp [hd]⟩
  have hrun0 : r.runningCnt = 0 ↔ ∀ k, k < n.children_.length →
      r.doneBits.testBit k = true := by
    rw [c3, countIn_eq_zero_iff]
    constructor
    · intro h k hk
      have := h k (by omega) (by omega)
      simp at this
      exact this
    · intro h j hj1 hj2
      simp [h j (by omega)]
  have hsucc : 0 < r.successCnt ↔ ∃ k, k < n.children_.length ∧
      r.succBits.testBit k = true := by
    rw [c1, countIn_pos_iff]
    constructor
    · rintro ⟨j, _, hj2, hjf⟩
      exact ⟨j, by omega, hjf⟩
    · rintro ⟨k, hk, hs⟩
      exact ⟨k, by omega, by omega, hs⟩
  have hsucc0 : r.successCnt = 0 ↔ ∀ k, k < n.children_.length →
      r.succBits.testBit k = false := by
    rw [c1, countIn_eq_zero_iff]
    constructor
    · intro h k hk
      exact h k (by omega) (by omega)
    · intro h j hj1 hj2
      exact h j (by omega)
  rw [hdbits, hsbits]
  constructor
  · intro hpol
    have hres := hall hpol
    rw [hres]
    by_cases h1 : 0 < r.failureCnt
    · rw [if_pos h1]
      obtain ⟨k0, hk0, hd0, hs0⟩ := hfail.mp h1
      refine ⟨⟨fun _ => hfail.mp h1, fun _ => rfl⟩, ?_, ?_⟩
      · constructor
        · intro hf
          simp at hf
        · rintro ⟨ha, -⟩
          have := ha k0 hk0 hd0
          rw [this] at hs0
          cases hs0
      · constructor
        · intro hf
          simp at hf
        · intro ha
          have := (ha k0 hk0).2
          rw [this] at hs0
          cases hs0
    · rw [if_neg h1]
      have hf0 := hfail0.mp (by omega)
      by_cases h2 : 0 < r.runningCnt
      · rw [if_pos h2]
        obtain ⟨k0, hk0, hd0⟩ := hrun.mp h2
        refine ⟨?_, ⟨fun _ => ⟨hf0, hrun.mp h2⟩, fun _ => rfl⟩, ?_⟩
        · constructor
          · intro hf
            simp at hf
          · intro hex
            exact absurd (hfail.mpr hex) h1
        · constructor
          · intro hf
            simp at hf
          · intro ha
            have := (ha k0 hk0).1
            rw [this] at hd0
            cases hd0
      · rw [if_neg h2]
        have hr0 := hrun0.mp (by omega)
        refine ⟨?_, ?_, Iff.intro
          (fun _ => fun k hk => ⟨hr0 k hk, hf0 k hk (hr0 k hk)⟩)
          (fun _ => rfl)⟩
        · constructor
          · intro hf
            simp at hf
          · intro hex
            exact absurd (hfail.mpr hex) h1
        · constructor
          · intro hf
            simp at hf
          · rintro ⟨-, k0, hk0, hd0⟩
            rw [hr0 k0 hk0] at hd0
            cases hd0
  · intro hpol
    have hres := hone hpol
    rw [hres]
    by_cases h1 : 0 < r.successCnt
    · rw [if_pos h1]
      obtain ⟨k0, hk0, hs0⟩ := hsucc.mp h1
      refine ⟨⟨fun _ => hsucc.mp h1, fun _ => rfl⟩, ?_, ?_⟩
      · constructor
        · intro hf
          simp at hf
        · rintro ⟨ha, -⟩
          have := ha k0 hk0
          rw [this] at hs0
          cases hs0
      · constructor
        · intro hf
          simp at hf
        · intro ha
          have := (ha k0 hk0).2
          rw [this] at hs0
          cases hs0
    · rw [if_neg h1]
      have hs0 := hsucc0.mp (by omega)
      by_cases h2 : 0 < r.runningCnt
      · rw [if_pos h2]
        obtain ⟨k0, hk0, hd0⟩ := hrun.mp h2
        refine ⟨?_, ⟨fun _ => ⟨hs0, hrun.mp h2⟩, fun _ => rfl⟩, ?_⟩
        · constructor
          · intro hf
            simp at hf
          · intro hex
            exact absurd (hsucc.mpr hex) h1
        · constructor
          · intro hf
            simp at hf
          · intro ha
            have := (ha k0 hk0).1
            rw [this] at hd0
            cases hd0
      · rw [if_neg h2]
        have hr0 := hrun0.mp (by omega)
        refine ⟨?_, ?_, Iff.intro
          (fun _ => fun k hk => ⟨hr0 k hk, hs0 k hk⟩)
          (fun _ => rfl)⟩
        · constructor
          · intro hf
            simp at hf
          · intro hex
            exact absurd (hsucc.mpr hex) h1
        · constructor
          · intro hf
            simp at hf
          · rintro ⟨-, k0, hk0, hd0⟩
            rw [hr0 k0 hk0] at hd0
            cases hd0

end BTSpec
namespace BTSpec
variable {Ctx : Type}

/-- A concrete childless Parallel node (RequireAll) over `Ctx = Nat`. -/
def wParE : Node Nat :=
  Node.mk NodeType.kParallel Status.kFailure 0 ParallelPolicy.kRequireAll 0 0
    none none none [] ""

/-- Witness for C6 at a concrete parallel node: with zero children,
RequireAll yields Success. -/
theorem claim_C6_witness : (tick [] wParE (0 : Nat)).res = Status.kSuccess :=
  (((claim_C6 [] wParE 0 rfl
      (fun h => by simp [wParE, Node.status_] at h)).1 rfl).2.2).mpr
    (fun k hk => by simp [wParE, Node.children_] at hk)

/-- C7: a Parallel child already marked done in the completion bitmask
is not ticked again on a resuming cycle: no tick event for it is
recorded, its subtree is left untouched, and its cached done/success
bits are carried over into the updated bitmasks (where the counting
reads them). -/
theorem claim_C7 (p : List Nat) (n : Node Ctx) (ctx : Ctx) (i : Nat)
    (ht : n.type_ = NodeType.kParallel)
    (hrun : n.status_ = Status.kRunning)
    (hbits : ∀ j, n.child_success_bits_.testBit j = true →
      n.child_done_bits_.testBit j = true)
    (hdone : n.child_done_bits_.testBit i = true) :
    (∀ s, (i, s) ∉ childTicks p (tick p n ctx).tr) ∧
    (tick p n ctx).node.children_.get? i = n.children_.get? i ∧
    (tick p n ctx).node.child_done_bits_.testBit i = true ∧
    (tick p n ctx).node.child_success_bits_.testBit i =
      n.child_success_bits_.testBit i := by
  obtain ⟨ctx0, htr, hch, hdbits, hsbits, hone, hall⟩ :=
    tick_par_bridge p n ctx ht
  have hinv0 : ∀ j,
      (if n.status_ = Status.kRunning then n.child_success_bits_
        else 0).testBit j = true →
      (if n.status_ = Status.kRunning then n.child_done_bits_
        else 0).testBit j = true := by
    intro j hj
    simp only [hrun, if_true] at hj ⊢
    exact hbits j hj
  obtain ⟨s1, s2, s3, s4, s5, s6, s7, s8⟩ :=
    parLoop_spec p n.children_ 0
      (if n.status_ = Status.kRunning then n.child_done_bits_ else 0)
      (if n.status_ = Status.kRunning then n.child_success_bits_ else 0)
      ctx0 hinv0
  have hbit : (if n.status_ = Status.kRunning then n.child_done_bits_
      else 0).testBit i = true := by
    rw [hrun, if_pos rfl]
    exact hdone
  refine ⟨?_, ?_, ?_, ?_⟩
  · intro s hmem
    rw [htr] at hmem
    have h3 := (s7 i s hmem).2.2.1
    rw [h3] at hbit
    cases hbit
  · rw [hch]
    have h2 := s2 i (by simpa using hbit)
    simpa using h2
  · rw [hdbits]
    exact (s4 i hbit).1
  · have h4 := (s4 i hbit).2
    rw [hsbits, h4, hrun, if_pos rfl]

/-- A concrete mid-streak Parallel node over `Ctx = Nat` whose single
child is already marked done. -/
def wParD : Node Nat :=
  Node.mk NodeType.kParallel Status.kRunning 0 ParallelPolicy.kRequireAll 1 0
    none none none
    [some (Node.mk NodeType.kAction Status.kFailure 0
      ParallelPolicy.kRequireAll 0 0 none none none [] "")] ""

/-- Witness for C7: the already-done child of `wParD` keeps its done
bit across the resuming tick. -/
theorem claim_C7_witness :
    (tick [] wParD (0 : Nat)).node.child_done_bits_.testBit 0 = true :=
  (claim_C7 [] wParD 0 0 rfl rfl
    (fun j hj => by simp [wParD, Node.child_success_bits_] at hj)
    (by simp [wParD, Node.child_done_bits_])).2.2.1

end BTSpec
namespace BTSpec
variable {Ctx : Type}

/-- C1 (amended): a Sequence or Selector propagates a child Error
unchanged on the same tick; a Parallel never returns Error at all (a
child Error is counted as a failed child instead). -/
theorem claim_C1 (p : List Nat) (n : Node Ctx) (ctx : Ctx) :
    ((n.type_ = NodeType.kSequence ∨ n.type_ = NodeType.kSelector) →
      ∀ j, (j, Status.kError) ∈ childTicks p (tick p n ctx).tr →
        (tick p n ctx).res = Status.kError) ∧
    (n.type_ = NodeType.kParallel →
      (tick p n ctx).res ≠ Status.kError) := by
  constructor
  · rintro (ht | ht) j hmem
    · rcases tick_seq_bridge p n ctx ht with ⟨ctx0, htr, hch, hmatch⟩
      rcases seqLoop_spec p
        (if n.status_ = Status.kRunning then n.current_child_ else 0)
        n.children_ 0 ctx0 with ⟨s1, s2, s3⟩
      rw [Nat.max_zero, Nat.zero_add] at s3
      rw [htr] at hmem
      cases hstop : (seqLoop p
          (if n.status_ = Status.kRunning then n.current_child_ else 0)
          0 n.children_ ctx0).stop with
      | completed =>
        rw [hstop] at s3
        simp only [seqStopSpec] at s3
        have := s3.1 _ hmem
        simp at this
      | nullAt j0 =>
        rw [hstop] at s3
        simp only [seqStopSpec] at s3
        have := s3.1 _ hmem
        simp at this
      | runningAt j0 =>
        rw [hstop] at s3
        simp only [seqStopSpec] at s3
        obtain ⟨base, hbe, hbAll, -⟩ := s3
        rw [hbe] at hmem
        rcases List.mem_append.mp hmem with h | h
        · have := hbAll _ h
          simp at this
        · simp at h
      | haltAt j0 s0 =>
        rw [hstop] at s3 hmatch
        simp only [seqStopSpec] at s3
        obtain ⟨base, hbe, hbAll, -, -, -⟩ := s3
        rw [hbe] at hmem
        rcases List.mem_append.mp hmem with h | h
        · have := hbAll _ h
          simp at this
        · simp at h
          rw [hmatch.1, h.2]
    · rcases tick_sel_bridge p n ctx ht with ⟨ctx0, htr, hch, hmatch⟩
      rcases selLoop_spec p
        (if n.status_ = Status.kRunning then n.current_child_ else 0)
        n.children_ 0 ctx0 with ⟨s1, s2, s3⟩
      rw [Nat.max_zero, Nat.zero_add] at s3
      rw [htr] at hmem
      cases hstop : (selLoop p
          (if n.status_ = Status.kRunning then n.current_child_ else 0)
          0 n.children_ ctx0).stop with
      | completed =>
        rw [hstop] at s3
        simp only [selStopSpec] at s3
        have := s3.1 _ hmem
        simp at this
      | nullAt j0 =>
        rw [hstop] at s3
        simp only [selStopSpec] at s3
        have := s3.1 _ hmem
        simp at this
      | runningAt j0 =>
        rw [hstop] at s3
        simp only [selStopSpec] at s3
        obtain ⟨base, hbe, hbAll, -⟩ := s3
        rw [hbe] at hmem
        rcases List.mem_append.mp hmem with h | h
        · have := hbAll _ h
          simp at this
        · simp at h
      | haltAt j0 s0 =>
        rw [hstop] at s3 hmatch
        simp only [selStopSpec] at s3
        obtain ⟨base, hbe, hbAll, -, -, -⟩ := s3
        rw [hbe] at hmem
        rcases List.mem_append.mp hmem with h | h
        · have := hbAll _ h
          simp at this
        · simp at h
          rw [hmatch.1, h.2]
  · intro ht hc
    obtain ⟨ctx0, htr, hch, hdbits, hsbits, hone, hall⟩ :=
      tick_par_bridge p n ctx ht
    cases hpol : n.success_policy_ with
    | kRequireOne =>
      have hres := hone hpol
      rw [hc] at hres
      split_ifs at hres <;> simp at hres
    | kRequireAll =>
      have hres := hall hpol
      rw [hc] at hres
      split_ifs at hres <;> simp at hres

end BTSpec
namespace BTSpec

/-- A concrete leaf over `Ctx = Nat` whose tick callback returns Error. -/
def wLeafErr : Node Nat :=
  Node.mk NodeType.kAction Status.kFailure 0 ParallelPolicy.kRequireAll 0 0
    (some fun c => (Status.kError, c)) none none [] ""

/-- A concrete Parallel (RequireAll) node whose only child is
`wLeafErr`. -/
def wParErr : Node Nat :=
  Node.mk NodeType.kParallel Status.kFailure 0 ParallelPolicy.kRequireAll 0 0
    none none none [some wLeafErr] ""

/-- Counterexample to C1 as stated: on this tick the Parallel's child
returns Error, yet the Parallel returns Failure, not Error — Error does
not propagate unchanged through a Parallel composite. -/
theorem claim_C1_counterexample :
    (0, Status.kError) ∈ childTicks [] (tick [] wParErr (0 : Nat)).tr ∧
    (tick [] wParErr (0 : Nat)).res = Status.kFailure ∧
    (tick [] wParErr (0 : Nat)).res ≠ Status.kError := by
  have hc : tick [0] wLeafErr (0 : Nat) =
      ⟨Status.kError,
        Node.mk NodeType.kAction Status.kError 0 ParallelPolicy.kRequireAll
          0 0 (some fun c => (Status.kError, c)) none none [] "", 0,
        [Event.tickEv [0] Status.kError]⟩ := by
    simp [wLeafErr, tick, Node.type_, tickLeaf, callEnter, callExit,
      Node.status_]
  have hp : parLoop [] 0 0 0 [some wLeafErr] (0 : Nat) =
      ⟨0, 0, 1, 1, 0,
        [some (Node.mk NodeType.kAction Status.kError 0
          ParallelPolicy.kRequireAll 0 0
          (some fun c => (Status.kError, c)) none none [] "")], 0,
        [Event.tickEv [0] Status.kError]⟩ := by
    rw [parLoop]
    simp [hc, parLoop]
  constructor
  · simp [wParErr, tick, Node.type_, tickParallel, Node.status_, hp,
      callEnter, callExit, childTicks, childTickEv, dropPref]
  constructor
  · simp [wParErr, tick, Node.type_, tickParallel, Node.status_, hp,
      callEnter, callExit]
  · simp [wParErr, tick, Node.type_, tickParallel, Node.status_, hp,
      callEnter, callExit]

/-- Witness for C1 (amended) at the concrete node `wParErr`. -/
theorem claim_C1_witness : (tick [] wParErr (0 : Nat)).res ≠ Status.kError :=
  (claim_C1 [] wParErr 0).2 rfl

end BTSpec
namespace BTSpec
variable {Ctx : Type}

/-- C2 (amended): a structural fault surfaces on the first tick of the
faulty node, but not always as Error — a leaf with no bound tick
callback and a malformed Inverter do tick to Error, while a Parallel
(RequireAll) holding a null child ticks to Failure on fresh entry (the
null child is counted as a failed child). -/
theorem claim_C2 (p : List Nat) (n : Node Ctx) (ctx : Ctx) :
    (IsLeafType n.type_ = true → n.tick_ = none →
      (tick p n ctx).res = Status.kError) ∧
    (n.type_ = NodeType.kInverter → (∀ c, n.children_ ≠ [some c]) →
      (tick p n ctx).res = Status.kError) ∧
    (n.type_ = NodeType.kParallel → n.status_ ≠ Status.kRunning →
      n.success_policy_ = ParallelPolicy.kRequireAll →
      none ∈ n.children_ →
      (tick p n ctx).res = Status.kFailure) := by
  refine ⟨?_, ?_, ?_⟩
  · intro hleaf htk
    cases n with
    | mk t st cur pol db sb tk en ex ch nm =>
      simp only [Node.tick_] at htk
      subst htk
      cases t <;> simp [IsLeafType, Node.type_] at hleaf <;>
        simp [tick, Node.type_, tickLeaf]
  · intro ht hne
    cases n with
    | mk t st cur pol db sb tk en ex ch nm =>
      simp only [Node.type_] at ht
      subst ht
      simp only [Node.children_] at hne
      cases ch with
      | nil => simp [tick, Node.type_, tickInverter]
      | cons c rest =>
        cases rest with
        | nil =>
          cases c with
          | none => simp [tick, Node.type_, tickInverter]
          | some child => exact absurd rfl (hne child)
        | cons c2 rest2 =>
          cases c <;> simp [tick, Node.type_, tickInverter]
  · intro ht hst hpol hnull
    obtain ⟨ctx0, htr, hch, hdbits, hsbits, hone, hall⟩ :=
      tick_par_bridge p n ctx ht
    have hinv0 : ∀ j,
        (if n.status_ = Status.kRunning then n.child_success_bits_
          else 0).testBit j = true →
        (if n.status_ = Status.kRunning then n.child_done_bits_
          else 0).testBit j = true := by
      intro j hj
      rw [if_neg hst] at hj
      simp at hj
    obtain ⟨s1, s2, s3, s4, s5, ⟨c1, c2, c3⟩, s7, s8⟩ :=
      parLoop_spec p n.children_ 0
        (if n.status_ = Status.kRunning then n.child_done_bits_ else 0)
        (if n.status_ = Status.kRunning then n.child_success_bits_ else 0)
        ctx0 hinv0
    obtain ⟨k, hk⟩ := List.mem_iff_get?.mp hnull
    have hklt : k < n.children_.length := by
      rcases List.get?_eq_some.mp hk with ⟨h, -⟩
      exact h
    have hbit : (if n.status_ = Status.kRunning then n.child_done_bits_
        else 0).testBit (0 + k) = false := by
      rw [if_neg hst]
      simp
    obtain ⟨hd, hs⟩ := s8 k hk hbit
    have hfc : 0 < (parLoop p 0
        (if n.status_ = Status.kRunning then n.child_done_bits_ else 0)
        (if n.status_ = Status.kRunning then n.child_success_bits_ else 0)
        n.children_ ctx0).failureCnt := by
      rw [c2]
      refine (countIn_pos_iff _ 0 n.children_.length).mpr
        ⟨k, by omega, by omega, ?_⟩
      rw [Nat.zero_add] at hd hs
      simp [hd, hs]
    have hres := hall hpol
    rw [hres, if_pos hfc]

end BTSpec
namespace BTSpec

/-- A concrete Parallel (RequireAll) node holding a single null child. -/
def wParNull : Node Nat :=
  Node.mk NodeType.kParallel Status.kFailure 0 ParallelPolicy.kRequireAll 0 0
    none none none [none] ""

/-- Counterexample to C2 as stated: `wParNull` carries a structural
fault that `Validate` reports (a null child), yet ticking it yields
Failure, not Error. -/
theorem claim_C2_counterexample :
    Validate wParNull = ValidateError.kNullChild ∧
    (tick [] wParNull (0 : Nat)).res = Status.kFailure ∧
    (tick [] wParNull (0 : Nat)).res ≠ Status.kError := by
  have hp : parLoop [] 0 0 0 [none] (0 : Nat) =
      ⟨0, 0, 1, 1, 0, [none], 0, []⟩ := by
    rw [parLoop]
    simp [parLoop]
  refine ⟨by simp [Validate, wParNull, Node.children_, kMaxChildren], ?_, ?_⟩
  · simp [wParNull, tick, Node.type_, tickParallel, Node.status_, hp,
      callEnter, callExit]
  · simp [wParNull, tick, Node.type_, tickParallel, Node.status_, hp,
      callEnter, callExit]

/-- A concrete leaf node with no bound tick callback. -/
def wLeafNoTick : Node Nat :=
  Node.mk NodeType.kAction Status.kFailure 0 ParallelPolicy.kRequireAll 0 0
    none none none [] ""

/-- Witness for C2 (amended): the unbound leaf ticks to Error. -/
theorem claim_C2_witness : (tick [] wLeafNoTick (0 : Nat)).res = Status.kError :=
  (claim_C2 [] wLeafNoTick 0).1 rfl rfl

end BTSpec
namespace BTSpec

/-- A concrete leaf with no tick callback but with bound lifecycle
callbacks that would visibly mutate the context. -/
def wLeafBad : Node Nat :=
  Node.mk NodeType.kAction Status.kFailure 0 ParallelPolicy.kRequireAll 0 0
    none (some fun c => c + 1) (some fun c => c + 10) [] ""

/-- Counterexample to C3 as stated: `wLeafBad` is freshly entered and
resolves to the terminal status Error, so the claim requires both bound
callbacks to fire; but the unbound-leaf Error path returns before the
lifecycle callbacks — neither fires and the context is untouched. -/
theorem claim_C3_counterexample :
    (tick [] wLeafBad (0 : Nat)).res = Status.kError ∧
    (tick [] wLeafBad (0 : Nat)).ctx = 0 ∧
    Event.enterEv [] ∉ (tick [] wLeafBad (0 : Nat)).tr ∧
    Event.exitEv [] ∉ (tick [] wLeafBad (0 : Nat)).tr := by
  simp [wLeafBad, tick, Node.type_, tickLeaf]

end BTSpec
namespace BTSpec
variable {Ctx : Type}

/-- C3 (amended): for a node whose dispatch guard holds (a leaf has a
bound tick callback; an Inverter has exactly one non-null child), the
tick trace decomposes as: an enter event iff the node was not already
Running and on-enter is bound, then child events only (no event at this
node's own path), then an exit event iff the result is terminal and
on-exit is bound, then the node's own tick event.  On the guard-failing
Error paths this shape does not hold (see the counterexample), which is
the corrected part of the claim. -/
theorem claim_C3 (p : List Nat) (n : Node Ctx) (ctx : Ctx)
    (hguard : (IsLeafType n.type_ = true → n.tick_ ≠ none) ∧
      (n.type_ = NodeType.kInverter → ∃ c, n.children_ = [some c])) :
    ∃ mid : List Event,
      (∀ e ∈ mid, Event.path e ≠ p) ∧
      (tick p n ctx).tr =
        (if n.status_ = Status.kRunning then []
         else if n.on_enter_.isSome then [Event.enterEv p] else []) ++
        mid ++
        (if (tick p n ctx).res = Status.kRunning then []
         else if n.on_exit_.isSome then [Event.exitEv p] else []) ++
        [Event.tickEv p (tick p n ctx).res] := by
  have hEnter : ∀ (st : Status) (en : Option (Ctx → Ctx)) (c : Ctx),
      ((if st = Status.kRunning then (c, ([] : List Event))
        else callEnter p en c)).2 =
      (if st = Status.kRunning then []
       else if en.isSome then [Event.enterEv p] else []) := by
    intro st en c
    by_cases h : st = Status.kRunning
    · simp [h]
    · cases en <;> simp [h, callEnter]
  have hExit2 : ∀ (s : Status) (ex : Option (Ctx → Ctx)) (c : Ctx),
      ((if s = Status.kRunning then (c, ([] : List Event))
        else callExit p ex c)).2 =
      (if s = Status.kRunning then []
       else if ex.isSome then [Event.exitEv p] else []) := by
    intro s ex c
    by_cases h : s = Status.kRunning
    · simp [h]
    · cases ex <;> simp [h, callExit]
  have hExitCall : ∀ (ex : Option (Ctx → Ctx)) (c : Ctx),
      (callExit p ex c).2 = (if ex.isSome then [Event.exitEv p] else []) := by
    intro ex c
    cases ex <;> simp [callExit]
  cases n with
  | mk t st cur pol db sb tk en ex ch nm =>
    have Hsub : ∀ c : Node Ctx, some c ∈ ch →
        ∀ (p' : List Nat) (ctx' : Ctx),
        ∀ e ∈ (tick p' c ctx').tr, ∃ q, Event.path e = p' ++ q :=
      fun c _ p' ctx' => tick_tr_under c p' ctx'
    cases t with
    | kAction =>
      have htk := hguard.1 (by simp [IsLeafType, Node.type_])
      simp only [Node.tick_] at htk
      cases tk with
      | none => exact absurd rfl htk
      | some f =>
        refine ⟨[], by simp, ?_⟩
        simp only [tick, Node.type_, tickLeaf, Node.status_, Node.on_enter_,
          Node.on_exit_]
        rw [hEnter, hExit2]
        simp
    | kCondition =>
      have htk := hguard.1 (by simp [IsLeafType, Node.type_])
      simp only [Node.tick_] at htk
      cases tk with
      | none => exact absurd rfl htk
      | some f =>
        refine ⟨[], by simp, ?_⟩
        simp only [tick, Node.type_, tickLeaf, Node.status_, Node.on_enter_,
          Node.on_exit_]
        rw [hEnter, hExit2]
        simp
    | kSequence =>
      have hmid : ∀ e ∈ (seqLoop p (if st = Status.kRunning then cur else 0)
          0 ch ((if st = Status.kRunning then (ctx, ([] : List Event))
            else callEnter p en ctx)).1).tr, Event.path e ≠ p := by
        intro e he
        obtain ⟨j, q, hpq, -⟩ :=
          seqLoop_tr_under p _ ch 0 _ Hsub e he
        rw [hpq]
        exact path_ne_of_cons
      rcases seqLoop_spec p (if st = Status.kRunning then cur else 0) ch 0
        ((if st = Status.kRunning then (ctx, ([] : List Event))
          else callEnter p en ctx)).1 with ⟨-, -, s3⟩
      simp only [tick, Node.type_, tickSequence, Node.status_, Node.on_enter_,
        Node.on_exit_]
      refine ⟨_, hmid, ?_⟩
      cases hstop : (seqLoop p (if st = Status.kRunning then cur else 0)
          0 ch ((if st = Status.kRunning then (ctx, ([] : List Event))
            else callEnter p en ctx)).1).stop with
      | completed => simp [hstop, hEnter, hExitCall]
      | nullAt j => simp [hstop, hEnter, hExitCall]
      | runningAt j => simp [hstop, hEnter, hExitCall]
      | haltAt j s0 =>
        rw [hstop] at s3
        simp only [seqStopSpec] at s3
        obtain ⟨base, -, -, -, hdisj, -, -⟩ := s3
        have hsne : s0 ≠ Status.kRunning := by
          rcases hdisj with h | h <;> subst h <;> simp
        simp [hstop, hEnter, hExitCall, hsne]
    | kSelector =>
      have hmid : ∀ e ∈ (selLoop p (if st = Status.kRunning then cur else 0)
          0 ch ((if st = Status.kRunning then (ctx, ([] : List Event))
            else callEnter p en ctx)).1).tr, Event.path e ≠ p := by
        intro e he
        obtain ⟨j, q, hpq, -⟩ :=
          selLoop_tr_under p _ ch 0 _ Hsub e he
        rw [hpq]
        exact path_ne_of_cons
      rcases selLoop_spec p (if st = Status.kRunning then cur else 0) ch 0
        ((if st = Status.kRunning then (ctx, ([] : List Event))
          else callEnter p en ctx)).1 with ⟨-, -, s3⟩
      simp only [tick, Node.type_, tickSelector, Node.status_, Node.on_enter_,
        Node.on_exit_]
      refine ⟨_, hmid, ?_⟩
      cases hstop : (selLoop p (if st = Status.kRunning then cur else 0)
          0 ch ((if st = Status.kRunning then (ctx, ([] : List Event))
            else callEnter p en ctx)).1).stop with
      | completed => simp [hstop, hEnter, hExitCall]
      | nullAt j => simp [hstop, hEnter, hExitCall]
      | runningAt j => simp [hstop, hEnter, hExitCall]
      | haltAt j s0 =>
        rw [hstop] at s3
        simp only [selStopSpec] at s3
        obtain ⟨base, -, -, -, hdisj, -, -⟩ := s3
        have hsne : s0 ≠ Status.kRunning := by
          rcases hdisj with h | h <;> subst h <;> simp
        simp [hstop, hEnter, hExitCall, hsne]
    | kParallel =>
      have hmid : ∀ e ∈ (parLoop p 0
          (if st = Status.kRunning then db else 0)
          (if st = Status.kRunning then sb else 0) ch
          ((if st = Status.kRunning then (ctx, ([] : List Event))
            else callEnter p en ctx)).1).tr, Event.path e ≠ p := by
        intro e he
        obtain ⟨j, q, hpq, -⟩ :=
          parLoop_tr_under p ch 0 _ _ _ Hsub e he
        rw [hpq]
        exact path_ne_of_cons
      cases pol <;>
        · simp only [tick, Node.type_, tickParallel, Node.status_,
            Node.on_enter_, Node.on_exit_]
          refine ⟨_, hmid, ?_⟩
          by_cases h1 : 0 < (parLoop p 0
              (if st = Status.kRunning then db else 0)
              (if st = Status.kRunning then sb else 0) ch
              ((if st = Status.kRunning then (ctx, ([] : List Event))
                else callEnter p en ctx)).1).successCnt
          · by_cases h2 : 0 < (parLoop p 0
                (if st = Status.kRunning then db else 0)
                (if st = Status.kRunning then sb else 0) ch
                ((if st = Status.kRunning then (ctx, ([] : List Event))
                  else callEnter p en ctx)).1).runningCnt <;>
              by_cases h3 : 0 < (parLoop p 0
                (if st = Status.kRunning then db else 0)
                (if st = Status.kRunning then sb else 0) ch
                ((if st = Status.kRunning then (ctx, ([] : List Event))
                  else callEnter p en ctx)).1).failureCnt <;>
              simp [h1, h2, h3, hEnter, hExitCall]
          · by_cases h2 : 0 < (parLoop p 0
                (if st = Status.kRunning then db else 0)
                (if st = Status.kRunning then sb else 0) ch
                ((if st = Status.kRunning then (ctx, ([] : List Event))
                  else callEnter p en ctx)).1).runningCnt <;>
              by_cases h3 : 0 < (parLoop p 0
                (if st = Status.kRunning then db else 0)
                (if st = Status.kRunning then sb else 0) ch
                ((if st = Status.kRunning then (ctx, ([] : List Event))
                  else callEnter p en ctx)).1).failureCnt <;>
              simp [h1, h2, h3, hEnter, hExitCall]
    | kInverter =>
      obtain ⟨c, hc⟩ := hguard.2 (by simp [Node.type_])
      simp only [Node.children_] at hc
      subst hc
      have hmid : ∀ e ∈ (tick (p ++ [0]) c
          ((if st = Status.kRunning then (ctx, ([] : List Event))
            else callEnter p en ctx)).1).tr, Event.path e ≠ p := by
        intro e he
        obtain ⟨q, hpq⟩ := tick_tr_under c (p ++ [0]) _ e he
        rw [hpq, List.append_assoc]
        exact path_ne_of_cons
      rw [show tick p (Node.mk NodeType.kInverter st cur pol db sb tk en ex
          [some c] nm) ctx = tickInverter p (Node.mk NodeType.kInverter st cur
          pol db sb tk en ex [some c] nm) ctx from by
        simp [tick, Node.type_]]
      simp only [tickInverter, Node.status_, Node.on_enter_, Node.on_exit_]
      refine ⟨_, hmid, ?_⟩
      cases hres : (tick (p ++ [0]) c
          ((if st = Status.kRunning then (ctx, ([] : List Event))
            else callEnter p en ctx)).1).res <;>
        simp [hres, hEnter, hExit2, hExitCall]

end BTSpec
namespace BTSpec

/-- A concrete well-formed leaf with bound tick and lifecycle
callbacks. -/
def wLeafOk : Node Nat :=
  Node.mk NodeType.kAction Status.kFailure 0 ParallelPolicy.kRequireAll 0 0
    (some fun c => (Status.kSuccess, c)) (some fun c => c + 1)
    (some fun c => c + 10) [] ""

/-- Witness for C3 (amended) at the concrete leaf `wLeafOk`. -/
theorem claim_C3_witness :
    ∃ mid : List Event,
      (∀ e ∈ mid, Event.path e ≠ []) ∧
      (tick [] wLeafOk (0 : Nat)).tr =
        (if wLeafOk.status_ = Status.kRunning then []
         else if wLeafOk.on_enter_.isSome then [Event.enterEv []] else []) ++
        mid ++
        (if (tick [] wLeafOk (0 : Nat)).res = Status.kRunning then []
         else if wLeafOk.on_exit_.isSome then [Event.exitEv []] else []) ++
        [Event.tickEv [] (tick [] wLeafOk (0 : Nat)).res] :=
  claim_C3 [] wLeafOk 0
    ⟨fun _ => by simp [wLeafOk, Node.tick_],
     fun h => by simp [wLeafOk, Node.type_] at h⟩

end BTSpec
